import Mathlib

/-!
Shallow embedding of the `templao` templating engine (`src/index.js`).

The embedding models, faithfully to the JavaScript source:
* the JS value fragment the engine manipulates (strings, integers, booleans,
  `null`, `undefined`, symbols, functions, object references) with `===`
  as structural equality on this fragment (numbers are modelled NaN-free;
  function values are a closed set of function objects whose structural
  identity stands for JS reference identity);
* the placeholder grammar `/\x7b([\s\S]+?)\x7d/` and the dynamic-expression
  grammar `/([\s\S]+?)\(([\s|\S]*?)\)/` as executable scanners with the
  exact leftmost-lazy matching semantics of the JS regexes;
* `StaticExpression` and `DynamicExpression` (change detection, the
  parameter store, `getValue`); the `Symbol()` sentinels become the
  `Slot.unset` tag, which no context value can equal;
* the compiler `parse` (tree walk, text splitting, node-index assignment,
  empty-segment flagging and removal, attribute classification);
* the part runtime (`TemplatePart.update`, per-kind casts, mutations) and
  `TemplateInstance` (instantiation walk, update loop).  A JS `TypeError`
  (calling a non-function) is modelled by `Option.none` propagation.
-/

abbrev Str := List Char

/-- Closed set of function objects appearing in contexts.  Constructor
identity models JS reference identity of function values. -/
inductive JSFn where
  | add2       /- (a, b) => a + b -/
  | countArgs  /- returns the number of received arguments -/
deriving DecidableEq

/-- JS values handled by the engine.  `sym n` are symbol values (the engine
creates fresh ones internally; see `Slot`), `obj n` are object references. -/
inductive JSValue where
  | str : Str → JSValue
  | num : Int → JSValue
  | bool : Bool → JSValue
  | null : JSValue
  | undefined : JSValue
  | sym : Nat → JSValue
  | fn : JSFn → JSValue
  | obj : Nat → JSValue
deriving DecidableEq

/-- Calling a function object.  Only the numeric domain exercised by the
engine's contexts is modelled for `add2`. -/
def JSFn.apply : JSFn → List JSValue → JSValue
  | .add2, args =>
    match args.get? 0, args.get? 1 with
    | some (.num a), some (.num b) => .num (a + b)
    | _, _ => .undefined
  | .countArgs, args => .num args.length

/-- JS truthiness of the modelled value fragment. -/
def JSValue.truthy : JSValue → Bool
  | .str s => !s.isEmpty
  | .num n => n ≠ 0
  | .bool b => b
  | .null => false
  | .undefined => false
  | .sym _ => true
  | .fn _ => true
  | .obj _ => true

/-- JS string coercion (used by `textContent`/`setAttribute` assignment).
Real JS throws on symbols; no claim coerces a symbol. -/
def JSValue.render : JSValue → Str
  | .str s => s
  | .num n => (toString n).toList
  | .bool b => if b then "true".toList else "false".toList
  | .null => "null".toList
  | .undefined => "undefined".toList
  | .sym _ => []
  | .fn _ => "function".toList
  | .obj _ => "[object Object]".toList

/-- A context patch: a JS object, modelled as an association list.
`lookupKey ctx k = none` models `!(k in ctx)`. -/
abbrev Ctx := List (Str × JSValue)

def lookupKey : List (Str × JSValue) → Str → Option JSValue
  | [], _ => none
  | (k', v) :: rest, k => if k' = k then some v else lookupKey rest k

/-- JS property write `store[k] = v`: updates the value in place if the key
exists, otherwise appends the key (JS object insertion order). -/
def storeSet : List (Str × JSValue) → Str → JSValue → List (Str × JSValue)
  | [], k, v => [(k, v)]
  | (k', w) :: rest, k, v =>
    if k' = k then (k', v) :: rest else (k', w) :: storeSet rest k v

/-- A mutable slot that starts as a fresh `Symbol()` sentinel.
`unset` is the sentinel; JS guarantees the fresh symbol is `!==` every
value a caller can place in a context. -/
inductive Slot where
  | unset : Slot
  | val : JSValue → Slot
deriving DecidableEq

/-- `slot !== v` (the comparison the source performs between a stored
slot and a context value). -/
def slotNe : Slot → JSValue → Bool
  | .unset, _ => true
  | .val w, v => decide (w ≠ v)

/-- `class StaticExpression`: `_expression` is the context key, `_value`
the last value returned by `getValue` (initially `Symbol()`). -/
structure StaticExpr where
  key : Str
  last : Slot
deriving DecidableEq

/-- `StaticExpression.changed`:
`this._expression in context && this._value !== context[this._expression]`. -/
def StaticExpr.changed (e : StaticExpr) (ctx : Ctx) : Bool :=
  match lookupKey ctx e.key with
  | some v => slotNe e.last v
  | none => false

/-- `StaticExpression.getValue`: reads `context[key]` (JS yields `undefined`
for an absent key), records it as last-seen and returns it. -/
def StaticExpr.getValue (e : StaticExpr) (ctx : Ctx) : JSValue × StaticExpr :=
  let v := (lookupKey ctx e.key).getD .undefined
  (v, { e with last := .val v })

/-- `DynamicExpression._initParamsStore`: a store with every parameter key
set to `undefined` (duplicate parameters collapse, JS object semantics). -/
def initParamsStore (params : List Str) : List (Str × JSValue) :=
  params.foldl (fun st p => storeSet st p .undefined) []

/-- `class DynamicExpression`: `_functionName`, `_params` (declared order),
`_function` (initially `Symbol()`), `_paramsStore`. -/
structure DynExpr where
  functionName : Str
  params : List Str
  fnSlot : Slot
  store : List (Str × JSValue)
deriving DecidableEq

/-- `DynamicExpression._paramsChanged`: some parameter key is present in the
patch and its value differs from the stored one (an absent store key reads
as `undefined`, JS property access). -/
def DynExpr.paramsChanged (e : DynExpr) (ctx : Ctx) : Bool :=
  e.params.any fun k =>
    match lookupKey ctx k with
    | some v => decide ((lookupKey e.store k).getD .undefined ≠ v)
    | none => false

/-- `DynamicExpression._functionChanged`. -/
def DynExpr.functionChanged (e : DynExpr) (ctx : Ctx) : Bool :=
  match lookupKey ctx e.functionName with
  | some v => slotNe e.fnSlot v
  | none => false

def DynExpr.changed (e : DynExpr) (ctx : Ctx) : Bool :=
  e.paramsChanged ctx || e.functionChanged ctx

/-- One step of `_updateParams` for parameter `p`: store the patch value when
the key is present, otherwise write back the stored value (an absent store
key reads as `undefined`). -/
def mergeStep (ctx : Ctx) (st : List (Str × JSValue)) (p : Str) : List (Str × JSValue) :=
  match lookupKey ctx p with
  | some v => storeSet st p v
  | none => storeSet st p ((lookupKey st p).getD .undefined)

/-- `DynamicExpression._updateParams`: merge every declared parameter. -/
def DynExpr.updateParams (e : DynExpr) (ctx : Ctx) : DynExpr :=
  { e with store := e.params.foldl (mergeStep ctx) e.store }

/-- `DynamicExpression._updateFunction`. -/
def DynExpr.updateFunction (e : DynExpr) (ctx : Ctx) : DynExpr :=
  { e with
    fnSlot :=
      match lookupKey ctx e.functionName with
      | some v => .val v
      | none => e.fnSlot }

/-- `slot.apply(null, args)`: succeeds only when the slot holds a function
value; anything else (the `Symbol()` sentinel, a non-function context value)
is a JS `TypeError`, modelled as `none`. -/
def Slot.call : Slot → List JSValue → Option JSValue
  | .val (.fn f), args => some (f.apply args)
  | _, _ => none

/-- `DynamicExpression.getValue`: merge present parameters and function, then
invoke the stored function on the stored values (`Object.values` order). -/
def DynExpr.getValue (e : DynExpr) (ctx : Ctx) : Option (JSValue × DynExpr) :=
  let e2 := (e.updateParams ctx).updateFunction ctx
  match e2.fnSlot.call (e2.store.map Prod.snd) with
  | some v => some (v, e2)
  | none => none

/-- The two evaluator variants. -/
inductive Expression where
  | static : StaticExpr → Expression
  | dyn : DynExpr → Expression
deriving DecidableEq

def Expression.changed : Expression → Ctx → Bool
  | .static e, ctx => e.changed ctx
  | .dyn e, ctx => e.changed ctx

def Expression.getValue : Expression → Ctx → Option (JSValue × Expression)
  | .static e, ctx =>
    let r := e.getValue ctx
    some (r.1, .static r.2)
  | .dyn e, ctx =>
    match e.getValue ctx with
    | some (v, e') => some (v, .dyn e')
    | none => none

/-- The keys an evaluator consults (for stating omission properties). -/
def Expression.deps : Expression → List Str
  | .static e => [e.key]
  | .dyn e => e.functionName :: e.params

/- ### The dynamic-expression grammar `/([\s\S]+?)\(([\s|\S]*?)\)/` -/

/-- Lazy scan for the first `)`; returns (chars before it, chars after). -/
def findCloseParen : Str → Option (Str × Str)
  | [] => none
  | c :: rest =>
    if c = ')' then some ([], rest)
    else (findCloseParen rest).map fun p => (c :: p.1, p.2)

/-- One attempt of the executable-expression regex with the (reversed)
group-1 candidate `acc`: group 1 must be nonempty and lazy, group 2 runs to
the first `)`.  Mirrors the backtracking of the JS regex. -/
def execExprGo : Str → Str → Option (Str × Str)
  | _, [] => none
  | acc, c :: rest =>
    if c = '(' ∧ acc ≠ [] then
      match findCloseParen rest with
      | some (args, _) => some (acc.reverse, args)
      | none => execExprGo (c :: acc) rest
    else execExprGo (c :: acc) rest

/-- `executableExpression.exec(expression)`: the two capture groups of the
first match, or `none`. -/
def execExpr (s : Str) : Option (Str × Str) :=
  execExprGo [] s

/-- JS `String.prototype.trim` whitespace (the engine only meets blanks). -/
def isJsSpace (c : Char) : Bool :=
  c = ' ' ∨ c = '\t' ∨ c = '\n' ∨ c = '\r'

def jsTrim (s : Str) : Str :=
  ((s.dropWhile isJsSpace).reverse.dropWhile isJsSpace).reverse

/-- JS `String.prototype.split(',')`: the empty string yields `[""]`. -/
def splitOnComma : Str → List Str
  | [] => [[]]
  | c :: rest =>
    if c = ',' then [] :: splitOnComma rest
    else
      match splitOnComma rest with
      | s :: ss => (c :: s) :: ss
      | [] => [[c]]

/-- `createExpression`: dynamic when the executable-expression regex matches,
otherwise a static expression over the whole string. -/
def createExpression (expression : Str) : Expression :=
  match execExpr expression with
  | none => .static ⟨expression, .unset⟩
  | some (functionName, params) =>
    .dyn ⟨jsTrim functionName, (splitOnComma params).map jsTrim, .unset,
          initParamsStore ((splitOnComma params).map jsTrim)⟩

/- ### The placeholder grammar `/\x7b([\s\S]+?)\x7d/` -/

/-- Lazy scan for the first closing brace; returns (content, rest). -/
def scanToClose : Str → Option (Str × Str)
  | [] => none
  | c :: rest =>
    if c = '}' then some ([], rest)
    else (scanToClose rest).map fun p => (c :: p.1, p.2)

/-- After an opening brace: group 1 is `[\s\S]+?`, so at least one character
is consumed before the lazy scan for `\x7d`. -/
def placeholderAt : Str → Option (Str × Str)
  | [] => none
  | c :: rest => (scanToClose rest).map fun p => (c :: p.1, p.2)

/-- `expressionMatcher.exec(text)`: first (leftmost, lazy) placeholder match;
returns (text before the match, the capture group, text after). -/
def findPlaceholder : Str → Option (Str × Str × Str)
  | [] => none
  | c :: rest =>
    if c = '{' then
      match placeholderAt rest with
      | some (expr, after) => some ([], expr, after)
      | none => (findPlaceholder rest).map fun t => (c :: t.1, t.2.1, t.2.2)
    else (findPlaceholder rest).map fun t => (c :: t.1, t.2.1, t.2.2)

theorem scanToClose_len {s a b : Str} (h : scanToClose s = some (a, b)) :
    b.length < s.length := by
  induction s generalizing a b with
  | nil => simp [scanToClose] at h
  | cons c rest ih =>
    simp only [scanToClose] at h
    split at h
    · simp only [Option.some.injEq, Prod.mk.injEq] at h
      simp [← h.2]
    · cases hrec : scanToClose rest with
      | none => rw [hrec] at h; simp at h
      | some p =>
        rw [hrec] at h
        simp only [Option.map_some', Option.some.injEq, Prod.mk.injEq] at h
        have := ih (a := p.1) (b := p.2) (by rw [hrec])
        rw [← h.2]
        simp only [List.length_cons]
        omega

theorem placeholderAt_len {s a b : Str} (h : placeholderAt s = some (a, b)) :
    b.length < s.length := by
  cases s with
  | nil => simp [placeholderAt] at h
  | cons c rest =>
    simp only [placeholderAt] at h
    cases hs : scanToClose rest with
    | none => rw [hs] at h; simp at h
    | some p =>
      rw [hs] at h
      simp only [Option.map_some', Option.some.injEq, Prod.mk.injEq] at h
      have := scanToClose_len (s := rest) (a := p.1) (b := p.2) (by rw [hs])
      rw [← h.2]
      simp only [List.length_cons]
      omega

theorem findPlaceholder_len {s b e r : Str} (h : findPlaceholder s = some (b, e, r)) :
    r.length < s.length := by
  induction s generalizing b e r with
  | nil => simp [findPlaceholder] at h
  | cons c rest ih =>
    simp only [findPlaceholder] at h
    split at h
    · cases hpa : placeholderAt rest with
      | none =>
        rw [hpa] at h
        cases hrec : findPlaceholder rest with
        | none => rw [hrec] at h; simp at h
        | some t =>
          rw [hrec] at h
          simp only [Option.map_some', Option.some.injEq, Prod.mk.injEq] at h
          have := ih (b := t.1) (e := t.2.1) (r := t.2.2) (by rw [hrec])
          rw [← h.2.2]
          simp only [List.length_cons]
          omega
      | some p =>
        rw [hpa] at h
        simp only [Option.some.injEq, Prod.mk.injEq] at h
        have := placeholderAt_len (s := rest) (a := p.1) (b := p.2) (by rw [hpa])
        rw [← h.2.2]
        simp only [List.length_cons]
        omega
    · cases hrec : findPlaceholder rest with
      | none => rw [hrec] at h; simp at h
      | some t =>
        rw [hrec] at h
        simp only [Option.map_some', Option.some.injEq, Prod.mk.injEq] at h
        have := ih (b := t.1) (e := t.2.1) (r := t.2.2) (by rw [hrec])
        rw [← h.2.2]
        simp only [List.length_cons]
        omega

/- ### Trees -/

/-- An attribute of a source element. -/
structure Attr where
  name : Str
  value : Str
deriving DecidableEq

/-- Source tree nodes: the walker shows only elements and text nodes
(`NodeFilter.SHOW_ELEMENT | NodeFilter.SHOW_TEXT`), so only those are
modelled. -/
inductive DNode where
  | element (tag : Str) (attrs : List Attr) (children : List DNode)
  | text (data : Str)

/-- Nodes of the parsed template tree.  Every node carries the identity the
parser assigned (standing for JS object identity); `flagged` marks a text
segment pushed onto `emptyNodes` for later removal; `props` models the
host-object fields written by property parts. -/
inductive MNode where
  | element (id : Nat) (tag : Str) (attrs : List Attr)
      (props : List (Str × JSValue)) (children : List MNode)
  | text (id : Nat) (data : Str) (flagged : Bool)

def MNode.nid : MNode → Nat
  | .element id _ _ _ _ => id
  | .text id _ _ => id

/-- A compiled part descriptor (`partTypes` plus its payload). -/
inductive PartDesc where
  | textNode (expression : Str)
  | booleanAttribute (expression : Str) (attrName : Str)
  | property (expression : Str) (propertyName : Str)
  | attr (expression : Str) (attrName : Str)
deriving DecidableEq

def PartDesc.expressionOf : PartDesc → Str
  | .textNode e => e
  | .booleanAttribute e _ => e
  | .property e _ => e
  | .attr e _ => e

/-- A registered part: the node index `addPart` recorded it under, the
descriptor, and (instrumentation) the identity of the node it was created
for, so that binding correctness is statable. -/
structure IPart where
  index : Nat
  desc : PartDesc
  target : Nat
deriving DecidableEq

/-- Result of a compile-walk step: the rewritten nodes, the registered
parts, and the running node-index and fresh-identity counters. -/
structure ParseOut where
  nodes : List MNode
  parts : List IPart
  idx : Nat
  fresh : Nat

/-- The `while (search = expressionMatcher.exec(node.textContent))` loop of
`parseTextNode`, acting on the walker's current text node (identity `id`,
data `d`, already-flagged status `flagged`) at node index `i` with fresh
identity counter `f`.  Returns the chain of text segments the node becomes,
the registered parts, and the final index and counter.  Each iteration:
`extractNodeBeforeExpression` splits off the text before the match (the
original node keeps it) and counts or flags it; `extractExpressionNode`
moves to the new node, splits off the placeholder span, clears it and
registers a `textNode` part at the current index; `extractNodeAfterExpression`
moves to the remainder and counts or flags it. -/
def scanLoop (id : Nat) (d : Str) (flagged : Bool) (i : Nat) (f : Nat) : ParseOut :=
  match h : findPlaceholder d with
  | none => ⟨[.text id d flagged], [], i, f⟩
  | some (before, expr, rest) =>
    ⟨.text id before (decide (before = [])) :: .text f [] false ::
        (scanLoop (f + 1) rest (decide (rest = []))
          (if rest = [] then (if before = [] then i else i + 1)
           else (if before = [] then i else i + 1) + 1) (f + 2)).nodes,
     ⟨if before = [] then i else i + 1, .textNode expr, f⟩ ::
        (scanLoop (f + 1) rest (decide (rest = []))
          (if rest = [] then (if before = [] then i else i + 1)
           else (if before = [] then i else i + 1) + 1) (f + 2)).parts,
     (scanLoop (f + 1) rest (decide (rest = []))
        (if rest = [] then (if before = [] then i else i + 1)
         else (if before = [] then i else i + 1) + 1) (f + 2)).idx,
     (scanLoop (f + 1) rest (decide (rest = []))
        (if rest = [] then (if before = [] then i else i + 1)
         else (if before = [] then i else i + 1) + 1) (f + 2)).fresh⟩
termination_by d.length
decreasing_by all_goals exact findPlaceholder_len h

/-- `parseAttributes` over the snapshot of attribute names: classify each
attribute whose value contains a placeholder by its name's first character
(`?` boolean attribute, `.` property, otherwise plain attribute), register
the descriptor at the element's index `i` (target `eid`), and remove the
attribute; attributes without a placeholder are kept. -/
def classifyAttr (i : Nat) (eid : Nat) (a : Attr) (expr : Str) : IPart :=
  match a.name with
  | '?' :: n => ⟨i, .booleanAttribute expr n, eid⟩
  | '.' :: n => ⟨i, .property expr n, eid⟩
  | _ => ⟨i, .attr expr a.name, eid⟩

def parseAttrs (i : Nat) (eid : Nat) : List Attr → List IPart × List Attr
  | [] => ([], [])
  | a :: rest =>
    match findPlaceholder a.value with
    | some (_, expr, _) =>
      (classifyAttr i eid a expr :: (parseAttrs i eid rest).1, (parseAttrs i eid rest).2)
    | none => ((parseAttrs i eid rest).1, a :: (parseAttrs i eid rest).2)

/-- The main `while (node)` walk of `parse` over a sibling list, starting at
node index `i` with fresh identity counter `f`.  Text nodes run the
`parseTextNode` loop and then receive the main loop's `nodeIndex++`;
element nodes run `parseAttributes` at their own index, then their children
are walked (pre-order), then the following siblings. -/
def parseForest : List DNode → Nat → Nat → ParseOut
  | [], i, f => ⟨[], [], i, f⟩
  | .text d :: ns, i, f =>
    ⟨(scanLoop f d false i (f + 1)).nodes
        ++ (parseForest ns ((scanLoop f d false i (f + 1)).idx + 1)
              (scanLoop f d false i (f + 1)).fresh).nodes,
     (scanLoop f d false i (f + 1)).parts
        ++ (parseForest ns ((scanLoop f d false i (f + 1)).idx + 1)
              (scanLoop f d false i (f + 1)).fresh).parts,
     (parseForest ns ((scanLoop f d false i (f + 1)).idx + 1)
        (scanLoop f d false i (f + 1)).fresh).idx,
     (parseForest ns ((scanLoop f d false i (f + 1)).idx + 1)
        (scanLoop f d false i (f + 1)).fresh).fresh⟩
  | .element tag attrs cs :: ns, i, f =>
    ⟨.element f tag (parseAttrs i f attrs).2 []
          (parseForest cs (i + 1) (f + 1)).nodes ::
        (parseForest ns (parseForest cs (i + 1) (f + 1)).idx
           (parseForest cs (i + 1) (f + 1)).fresh).nodes,
     (parseAttrs i f attrs).1 ++ (parseForest cs (i + 1) (f + 1)).parts
        ++ (parseForest ns (parseForest cs (i + 1) (f + 1)).idx
              (parseForest cs (i + 1) (f + 1)).fresh).parts,
     (parseForest ns (parseForest cs (i + 1) (f + 1)).idx
        (parseForest cs (i + 1) (f + 1)).fresh).idx,
     (parseForest ns (parseForest cs (i + 1) (f + 1)).idx
        (parseForest cs (i + 1) (f + 1)).fresh).fresh⟩

/-- `removeEmptyNodes`: delete every text segment flagged as empty. -/
def removeEmpty : List MNode → List MNode
  | [] => []
  | .text id d fl :: ns =>
    if fl then removeEmpty ns else .text id d fl :: removeEmpty ns
  | .element id t a p cs :: ns =>
    .element id t a p (removeEmpty cs) :: removeEmpty ns

/-- The compiled template: the rewritten content tree and the index-keyed
part descriptors (in registration order). -/
structure Template where
  content : List MNode
  parts : List IPart

/-- `parse(template)`: the fragment root occupies node index 0 and identity
counters start at 1, so the child walk starts at index 1. -/
def parse (ns : List DNode) : Template :=
  ⟨removeEmpty (parseForest ns 1 1).nodes, (parseForest ns 1 1).parts⟩

/- ### Walks over the parsed tree -/

/-- Pre-order flattening of a forest (the order a `TreeWalker` visits
element and text nodes). -/
def flattenF : List MNode → List MNode
  | [] => []
  | .element id t a p cs :: ns =>
    .element id t a p cs :: (flattenF cs ++ flattenF ns)
  | .text id d fl :: ns => .text id d fl :: flattenF ns

/-- The identities visited by the instantiation-time walk, in visit order;
position = node index.  Index 0 is the fragment root (identity 0, reserved:
parser identities start at 1). -/
def walkIds (content : List MNode) : List Nat :=
  0 :: (flattenF content).map MNode.nid

/-- Pre-order flattening skipping flagged text segments: the nodes that
survive `removeEmptyNodes`, in walk order. -/
def flatU : List MNode → List MNode
  | [] => []
  | .element id t a p cs :: ns =>
    .element id t a p cs :: (flatU cs ++ flatU ns)
  | .text id d fl :: ns =>
    if fl then flatU ns else .text id d fl :: flatU ns

/-- All identities of a forest (flagged segments included). -/
def idsF (ns : List MNode) : List Nat :=
  (flattenF ns).map MNode.nid

/- ### The part runtime -/

inductive PartKind where
  | textNode
  | property
  | attr
  | booleanAttribute
deriving DecidableEq

/-- A live part (`TemplatePart` subclass instance): its kind, the identity
of its bound node, the attribute/property name (empty for text parts), its
expression, and `_value`, the cached last-applied value (`Symbol()`
initially). -/
structure TemplatePart where
  kind : PartKind
  nodeId : Nat
  name : Str
  expr : Expression
  value : Slot
deriving DecidableEq

/-- `instantiatePart`: construct the part for a descriptor, bound to the
node at the descriptor's index (the `TemplatePart` constructor runs
`createExpression` and initialises `_value` to `Symbol()`). -/
def instantiatePart (nodeId : Nat) : PartDesc → TemplatePart
  | .textNode e => ⟨.textNode, nodeId, [], createExpression e, .unset⟩
  | .booleanAttribute e a => ⟨.booleanAttribute, nodeId, a, createExpression e, .unset⟩
  | .property e p => ⟨.property, nodeId, p, createExpression e, .unset⟩
  | .attr e a => ⟨.attr, nodeId, a, createExpression e, .unset⟩

def partsAt (parts : List IPart) (i : Nat) : List IPart :=
  parts.filter fun p => p.index = i

/-- The `while (node)` loop of `instantiateParts`: visit the walk in order,
keeping a running node index, and instantiate the descriptors registered at
each visited index against the visited node. -/
def instantiatePartsGo (parts : List IPart) : List Nat → Nat → List TemplatePart
  | [], _ => []
  | nid :: rest, i =>
    (partsAt parts i).map (fun ip => instantiatePart nid ip.desc)
      ++ instantiatePartsGo parts rest (i + 1)

/-- `instantiateParts`: walk the cloned content (same traversal as `parse`),
and for each visited node instantiate the descriptors registered at its
index. -/
def instantiateParts (content : List MNode) (parts : List IPart) : List TemplatePart :=
  instantiatePartsGo parts (walkIds content) 0

/-- `_cast` per part kind: text and attribute parts use `value || ''`,
boolean-attribute parts use `Boolean(value)`, property parts apply none. -/
def castValue : PartKind → JSValue → JSValue
  | .textNode, v => if v.truthy then v else .str []
  | .attr, v => if v.truthy then v else .str []
  | .booleanAttribute, v => .bool v.truthy
  | .property, v => v

/-- `_applyChanges` per kind, reified as a mutation record. -/
inductive Mutation where
  | setText (nodeId : Nat) (value : JSValue)
  | setAttr (nodeId : Nat) (name : Str) (value : JSValue)
  | setProp (nodeId : Nat) (name : Str) (value : JSValue)
  | toggleAttr (nodeId : Nat) (name : Str) (force : Bool)
deriving DecidableEq

def TemplatePart.applyKind (p : TemplatePart) (v : JSValue) : Mutation :=
  match p.kind with
  | .textNode => .setText p.nodeId v
  | .attr => .setAttr p.nodeId p.name v
  | .property => .setProp p.nodeId p.name v
  | .booleanAttribute => .toggleAttr p.nodeId p.name v.truthy

/-- `TemplatePart.update(context)`: when the expression changed, evaluate,
cast, and mutate only when the cast value differs from the cached one.
`none` models a thrown `TypeError` from `getValue`. -/
def TemplatePart.update (p : TemplatePart) (ctx : Ctx) :
    Option (TemplatePart × List Mutation) :=
  if p.expr.changed ctx then
    match p.expr.getValue ctx with
    | none => none
    | some (raw, expr') =>
      if slotNe p.value (castValue p.kind raw) then
        some ({ p with expr := expr', value := .val (castValue p.kind raw) },
          [p.applyKind (castValue p.kind raw)])
      else
        some ({ p with expr := expr' }, [])
  else some (p, [])

/- ### Applying mutations to the tree -/

def setAttrList : List Attr → Str → Str → List Attr
  | [], n, v => [⟨n, v⟩]
  | a :: rest, n, v =>
    if a.name = n then ⟨n, v⟩ :: rest else a :: setAttrList rest n v

/-- `removeAttribute(name)`: attribute names are unique on a DOM element,
so removal of the named attribute is a filter. -/
def removeAttrList (attrs : List Attr) (n : Str) : List Attr :=
  attrs.filter fun a => a.name != n

def hasAttrList (attrs : List Attr) (n : Str) : Bool :=
  attrs.any fun a => a.name = n

/-- `toggleAttribute(name, force)`: `true` adds the attribute with the empty
value when absent (an existing value is kept), `false` removes it. -/
def toggleAttrList (attrs : List Attr) (n : Str) (force : Bool) : List Attr :=
  if force then (if hasAttrList attrs n then attrs else attrs ++ [⟨n, []⟩])
  else removeAttrList attrs n

def Mutation.mutId : Mutation → Nat
  | .setText nid _ => nid
  | .setAttr nid _ _ => nid
  | .setProp nid _ _ => nid
  | .toggleAttr nid _ _ => nid

/-- Effect of a mutation on a text node (attribute operations on a text node
are unreachable in the engine and modelled as no-ops). -/
def mutText (m : Mutation) (id : Nat) (d : Str) (fl : Bool) : MNode :=
  match m with
  | .setText nid v => if id = nid then .text id v.render fl else .text id d fl
  | _ => .text id d fl

/-- Apply one mutation everywhere its target identity occurs (identities are
unique in parsed trees, so this is the single-node DOM mutation).
`textContent` assignment on an element replaces its children by one fresh
text node (identity untracked: no claim exercises this branch). -/
def applyMutation (m : Mutation) : List MNode → List MNode
  | [] => []
  | .text id d fl :: ns => mutText m id d fl :: applyMutation m ns
  | .element id t a p cs :: ns =>
    (if id = m.mutId then
      match m with
      | .setText _ v => .element id t a p [.text 0 v.render false]
      | .setAttr _ n v => .element id t (setAttrList a n v.render) p (applyMutation m cs)
      | .setProp _ n v => .element id t a (storeSet p n v) (applyMutation m cs)
      | .toggleAttr _ n fo => .element id t (toggleAttrList a n fo) p (applyMutation m cs)
    else .element id t a p (applyMutation m cs)) :: applyMutation m ns

/-- First (pre-order) node with the given identity. -/
def findById : List MNode → Nat → Option MNode
  | [], _ => none
  | .text id d fl :: ns, nid =>
    if id = nid then some (.text id d fl) else findById ns nid
  | .element id t a p cs :: ns, nid =>
    if id = nid then some (.element id t a p cs)
    else
      match findById cs nid with
      | some n => some n
      | none => findById ns nid

/- ### Template instances -/

structure TemplateInstance where
  content : List MNode
  parts : List TemplatePart

def runParts : List TemplatePart → Ctx → List MNode →
    Option (List TemplatePart × List MNode)
  | [], _, t => some ([], t)
  | p :: ps, ctx, t =>
    match p.update ctx with
    | none => none
    | some (p', muts) =>
      match runParts ps ctx (muts.foldl (fun acc m => applyMutation m acc) t) with
      | none => none
      | some r => some (p' :: r.1, r.2)

/-- `TemplateInstance.update(context)`: update every part in order, each
mutation taking effect immediately.  `none` models an exception escaping
to the caller. -/
def TemplateInstance.update (inst : TemplateInstance) (ctx : Ctx) :
    Option TemplateInstance :=
  match runParts inst.parts ctx inst.content with
  | some r => some ⟨r.2, r.1⟩
  | none => none

/-- `Template.createInstance(initialContext)`: clone the content (pure data:
the clone is the tree itself, identities preserved), instantiate the parts,
and run one full update when an initial context is supplied. -/
def Template.createInstance (tpl : Template) (initialContext : Option Ctx) :
    Option TemplateInstance :=
  let inst : TemplateInstance := ⟨tpl.content, instantiateParts tpl.content tpl.parts⟩
  match initialContext with
  | some ctx => inst.update ctx
  | none => some inst

/- ### Store and evaluator lemmas -/

theorem lookup_storeSet_self (st : List (Str × JSValue)) (k : Str) (v : JSValue) :
    lookupKey (storeSet st k v) k = some v := by
  induction st with
  | nil => simp [storeSet, lookupKey]
  | cons a rest ih =>
    obtain ⟨k', w⟩ := a
    by_cases h : k' = k
    · simp [storeSet, lookupKey, h]
    · simp [storeSet, lookupKey, h, ih]

theorem lookup_storeSet_ne (st : List (Str × JSValue)) {k' k : Str} (v : JSValue)
    (h : k' ≠ k) : lookupKey (storeSet st k' v) k = lookupKey st k := by
  induction st with
  | nil => simp [storeSet, lookupKey, h]
  | cons a rest ih =>
    obtain ⟨k'', w⟩ := a
    by_cases h2 : k'' = k'
    · simp [storeSet, lookupKey, h2, h]
    · simp only [storeSet, if_neg h2, lookupKey]
      by_cases h3 : k'' = k <;> simp [h3, ih]

theorem updateParams_store (e : DynExpr) (ctx : Ctx) :
    (e.updateParams ctx).store = e.params.foldl (mergeStep ctx) e.store := rfl

theorem foldl_mergeStep_absent (ctx : Ctx) (params : List Str)
    (st : List (Str × JSValue)) {k : Str} (hv : lookupKey ctx k = none) :
    (lookupKey (params.foldl (mergeStep ctx) st) k).getD .undefined
      = (lookupKey st k).getD .undefined := by
  induction params generalizing st with
  | nil => rfl
  | cons p ps ih =>
    simp only [List.foldl_cons]
    rw [ih]
    by_cases hpk : p = k
    · subst hpk
      unfold mergeStep
      rw [hv, lookup_storeSet_self]
      rfl
    · unfold mergeStep
      cases lookupKey ctx p <;> rw [lookup_storeSet_ne _ _ hpk]

theorem initParamsStore_getD (params : List Str) (k : Str) :
    (lookupKey (initParamsStore params) k).getD .undefined = .undefined := by
  suffices h : ∀ (st : List (Str × JSValue)),
      (∀ k', (lookupKey st k').getD .undefined = .undefined) →
      (lookupKey (params.foldl (fun st p => storeSet st p .undefined) st) k).getD
        .undefined = .undefined by
    exact h [] (fun _ => rfl)
  induction params with
  | nil => intro st hst; exact hst k
  | cons p ps ih =>
    intro st hst
    simp only [List.foldl_cons]
    refine ih _ (fun k' => ?_)
    by_cases hpk : p = k'
    · subst hpk; rw [lookup_storeSet_self]; rfl
    · rw [lookup_storeSet_ne _ _ hpk]; exact hst k'

/-- A patch containing none of the keys an expression consults never counts
as changed. -/
theorem expr_not_changed_of_no_dep {ex : Expression} {ctx : Ctx}
    (h : ∀ k, k ∈ ex.deps → lookupKey ctx k = none) :
    ex.changed ctx = false := by
  cases ex with
  | static e =>
    have := h e.key (by simp [Expression.deps])
    simp [Expression.changed, StaticExpr.changed, this]
  | dyn e =>
    simp only [Expression.changed, DynExpr.changed, Bool.or_eq_false_iff]
    constructor
    · simp only [DynExpr.paramsChanged]
      rw [List.any_eq_false]
      intro k hk
      have := h k (by simp [Expression.deps, hk])
      simp [this]
    · have := h e.functionName (by simp [Expression.deps])
      simp [DynExpr.functionChanged, this]

/-- A part whose patch omits every depended-upon key is a strict no-op. -/
theorem update_of_no_dep (p : TemplatePart) (ctx : Ctx)
    (h : ∀ k, k ∈ p.expr.deps → lookupKey ctx k = none) :
    p.update ctx = some (p, []) := by
  simp [TemplatePart.update, expr_not_changed_of_no_dep h]

/-- Claim C10: for the expression string `name()`, expression creation yields
a dynamic expression whose parameter list is exactly one empty-string key
(splitting the empty parameter list on `,` gives one empty item), so the
stored function is invoked with one argument, initially `undefined`, rather
than with zero arguments (verified by calling a function that reports its
argument count). -/
theorem c10_empty_parens_one_param :
    createExpression ("name()".toList) =
      Expression.dyn ⟨"name".toList, [[]], Slot.unset, [([], JSValue.undefined)]⟩ ∧
    ([[]] : List Str).length = 1 ∧
    (initParamsStore [[]]).map Prod.snd = [JSValue.undefined] ∧
    DynExpr.getValue ⟨"name".toList, [[]], Slot.unset, [([], JSValue.undefined)]⟩
        [("name".toList, JSValue.fn .countArgs)] =
      some (JSValue.num 1,
        ⟨"name".toList, [[]], Slot.val (JSValue.fn .countArgs),
         [([], JSValue.undefined)]⟩) := by
  refine ⟨by decide, rfl, by decide, by decide⟩

/-- Claim C5, counterexample: the dynamic evaluator's parameter store is
initialised to `undefined`, not to a sentinel; for `f(a)` the very first
update whose patch contains the depended-upon key `a` with value `undefined`
does not report changed. -/
theorem c5_cx_param_store_not_sentinel :
    createExpression ("f(a)".toList) =
      Expression.dyn ⟨"f".toList, ["a".toList], Slot.unset,
        [("a".toList, JSValue.undefined)]⟩ ∧
    "a".toList ∈ Expression.deps (createExpression ("f(a)".toList)) ∧
    lookupKey [("a".toList, JSValue.undefined)] "a".toList =
      some JSValue.undefined ∧
    Expression.changed (createExpression ("f(a)".toList))
      [("a".toList, JSValue.undefined)] = false := by
  refine ⟨by decide, by decide, by decide, by decide⟩

/-- Claim C5 (amended): the static evaluator's last-seen slot and the dynamic
evaluator's function slot start as sentinels distinguishable from every
value, so a first update with that key present always reports changed;
dynamic parameter slots start as `undefined`, so a fresh dynamic evaluator
reports changed exactly when some present parameter differs from `undefined`
or the function key is present; and a part never applies a mutation on its
first update unless a depended-upon key is present in the patch. -/
theorem c5_first_update_sentinel :
    (∀ (k : Str) (ctx : Ctx) (v : JSValue),
        lookupKey ctx k = some v →
        StaticExpr.changed ⟨k, Slot.unset⟩ ctx = true) ∧
    (∀ (fname : Str) (params : List Str) (ctx : Ctx),
        DynExpr.changed ⟨fname, params, Slot.unset, initParamsStore params⟩ ctx = true ↔
          ((∃ k, k ∈ params ∧ ∃ v, lookupKey ctx k = some v ∧ v ≠ JSValue.undefined) ∨
           (lookupKey ctx fname).isSome = true)) ∧
    (∀ (nid : Nat) (d : PartDesc) (ctx : Ctx),
        (∀ k, k ∈ (instantiatePart nid d).expr.deps → lookupKey ctx k = none) →
        (instantiatePart nid d).update ctx = some (instantiatePart nid d, [])) := by
  refine ⟨?_, ?_, fun nid d ctx h => update_of_no_dep _ ctx h⟩
  · intro k ctx v hv
    simp [StaticExpr.changed, hv, slotNe]
  · intro fname params ctx
    simp only [DynExpr.changed, Bool.or_eq_true]
    constructor
    · rintro (hp | hf)
      · left
        simp only [DynExpr.paramsChanged, List.any_eq_true] at hp
        obtain ⟨k, hk, hkchanged⟩ := hp
        refine ⟨k, hk, ?_⟩
        cases hc : lookupKey ctx k with
        | none => rw [hc] at hkchanged; simp at hkchanged
        | some v =>
          rw [hc] at hkchanged
          simp only [decide_eq_true_eq] at hkchanged
          rw [initParamsStore_getD] at hkchanged
          exact ⟨v, rfl, fun he => hkchanged (he ▸ rfl)⟩
      · right
        simp only [DynExpr.functionChanged] at hf
        cases hc : lookupKey ctx fname with
        | none => rw [hc] at hf; simp at hf
        | some v => simp [hc]
    · rintro (⟨k, hk, v, hv, hne⟩ | hf)
      · left
        simp only [DynExpr.paramsChanged, List.any_eq_true]
        refine ⟨k, hk, ?_⟩
        rw [hv]
        simp only [decide_eq_true_eq]
        rw [initParamsStore_getD]
        exact fun he => hne he.symm
      · right
        simp only [DynExpr.functionChanged]
        cases hc : lookupKey ctx fname with
        | none => rw [hc] at hf; simp at hf
        | some v => simp [hc, slotNe]

theorem c5_first_update_sentinel_witness :
    (lookupKey [("x".toList, JSValue.bool false)] "x".toList =
        some (JSValue.bool false) ∧
     StaticExpr.changed ⟨"x".toList, Slot.unset⟩
        [("x".toList, JSValue.bool false)] = true) ∧
    ((∀ k, k ∈ (instantiatePart 2 (PartDesc.textNode "y".toList)).expr.deps →
        lookupKey [("x".toList, JSValue.num 1)] k = none) ∧
     (instantiatePart 2 (PartDesc.textNode "y".toList)).update
        [("x".toList, JSValue.num 1)] =
      some (instantiatePart 2 (PartDesc.textNode "y".toList), [])) := by
  refine ⟨⟨by decide, ?_⟩, ⟨by decide, ?_⟩⟩
  · exact c5_first_update_sentinel.1 ("x".toList)
      [("x".toList, JSValue.bool false)] (JSValue.bool false) (by decide)
  · exact c5_first_update_sentinel.2.2 2 (PartDesc.textNode "y".toList)
      [("x".toList, JSValue.num 1)] (by decide)

/-- Claim C6, counterexample: a dynamic part `f(a)` whose first patch
`{a: 1}` omits the depended-upon function key `f` raises a `TypeError` to
the caller of `update` (the `Symbol()` sentinel is applied as a function),
rather than being withheld. -/
theorem c6_cx_omitted_fn_key_error :
    "f".toList ∈ (instantiatePart 1 (PartDesc.textNode "f(a)".toList)).expr.deps ∧
    lookupKey [("a".toList, JSValue.num 1)] "f".toList = none ∧
    (instantiatePart 1 (PartDesc.textNode "f(a)".toList)).update
      [("a".toList, JSValue.num 1)] = none := by
  refine ⟨by decide, by decide, by decide⟩

/-- Claim C6 (amended): omitting keys is not an error and withholds the
update for static parts; for dynamic parts, when the function slot resolves
to a function value (supplied by this patch or a previous one), `update`
never errors and every parameter key absent from the patch retains its
previously stored value; evaluation triggered while the function slot holds
no function value raises a `TypeError` to the caller. -/
theorem c6_omitted_key_withheld :
    (∀ (p : TemplatePart) (se : StaticExpr) (ctx : Ctx),
        p.expr = .static se → lookupKey ctx se.key = none →
        p.update ctx = some (p, [])) ∧
    (∀ (p : TemplatePart) (de : DynExpr) (ctx : Ctx) (f : JSFn),
        p.expr = .dyn de →
        (de.updateFunction ctx).fnSlot = Slot.val (JSValue.fn f) →
        ∃ p' muts, p.update ctx = some (p', muts) ∧
          ∀ de', p'.expr = .dyn de' →
            ∀ k, lookupKey ctx k = none →
              (lookupKey de'.store k).getD JSValue.undefined
                = (lookupKey de.store k).getD JSValue.undefined) := by
  constructor
  · intro p se ctx hse hk
    refine update_of_no_dep p ctx ?_
    intro k hdep
    rw [hse] at hdep
    simp only [Expression.deps, List.mem_singleton] at hdep
    rw [hdep]
    exact hk
  · intro p de ctx f hde hf
    have hret : ∀ k, lookupKey ctx k = none →
        (lookupKey ((de.updateParams ctx).updateFunction ctx).store k).getD
            JSValue.undefined
          = (lookupKey de.store k).getD JSValue.undefined := by
      intro k hk
      have hst : ((de.updateParams ctx).updateFunction ctx).store
          = (de.updateParams ctx).store := rfl
      rw [hst, updateParams_store]
      exact foldl_mergeStep_absent ctx de.params de.store hk
    by_cases hc : p.expr.changed ctx
    · have hfn2 : ((de.updateParams ctx).updateFunction ctx).fnSlot
          = Slot.val (JSValue.fn f) := hf
      have hg : p.expr.getValue ctx =
          some (f.apply (((de.updateParams ctx).updateFunction ctx).store.map Prod.snd),
            .dyn ((de.updateParams ctx).updateFunction ctx)) := by
        rw [hde]
        simp only [Expression.getValue, DynExpr.getValue, hfn2, Slot.call]
      by_cases hv : slotNe p.value
          (castValue p.kind
            (f.apply (((de.updateParams ctx).updateFunction ctx).store.map Prod.snd))) = true
      · refine ⟨⟨p.kind, p.nodeId, p.name, .dyn ((de.updateParams ctx).updateFunction ctx),
            .val (castValue p.kind
              (f.apply (((de.updateParams ctx).updateFunction ctx).store.map Prod.snd)))⟩,
          [p.applyKind (castValue p.kind
            (f.apply (((de.updateParams ctx).updateFunction ctx).store.map Prod.snd)))],
          ?_, ?_⟩
        · simp only [TemplatePart.update, hc, if_true, hg, hv, if_true]
        · intro de' hde' k hk
          simp only [Expression.dyn.injEq] at hde'
          rw [← hde']
          exact hret k hk
      · refine ⟨⟨p.kind, p.nodeId, p.name, .dyn ((de.updateParams ctx).updateFunction ctx),
            p.value⟩, [], ?_, ?_⟩
        · simp only [TemplatePart.update, hc, if_true, hg]
          rw [if_neg hv]
        · intro de' hde' k hk
          simp only [Expression.dyn.injEq] at hde'
          rw [← hde']
          exact hret k hk
    · refine ⟨p, [], by simp [TemplatePart.update, hc], ?_⟩
      intro de' hde' k hk
      rw [hde] at hde'
      have hdd : de = de' := by
        simpa [Expression.dyn.injEq] using hde'
      rw [← hdd]

theorem c6_omitted_key_withheld_witness :
    ((instantiatePart 1 (PartDesc.textNode "x".toList)).expr =
        Expression.static ⟨"x".toList, Slot.unset⟩ ∧
     lookupKey [("y".toList, JSValue.num 1)] "x".toList = none ∧
     (instantiatePart 1 (PartDesc.textNode "x".toList)).update
        [("y".toList, JSValue.num 1)] =
      some (instantiatePart 1 (PartDesc.textNode "x".toList), [])) ∧
    ((DynExpr.updateFunction
        ⟨"f".toList, ["a".toList], Slot.val (JSValue.fn .add2),
         [("a".toList, JSValue.num 1)]⟩ [("a".toList, JSValue.num 2)]).fnSlot =
      Slot.val (JSValue.fn .add2) ∧
     ∃ p' muts,
       TemplatePart.update
          ⟨.textNode, 1, [], .dyn ⟨"f".toList, ["a".toList], Slot.val (JSValue.fn .add2),
            [("a".toList, JSValue.num 1)]⟩, Slot.unset⟩
          [("a".toList, JSValue.num 2)] = some (p', muts) ∧
       ∀ de', p'.expr = Expression.dyn de' →
         ∀ k, lookupKey [("a".toList, JSValue.num 2)] k = none →
           (lookupKey de'.store k).getD JSValue.undefined
             = (lookupKey [("a".toList, JSValue.num 1)] k).getD JSValue.undefined) := by
  refine ⟨⟨by decide, by decide, ?_⟩, ⟨by decide, ?_⟩⟩
  · exact c6_omitted_key_withheld.1 (instantiatePart 1 (PartDesc.textNode "x".toList))
      ⟨"x".toList, Slot.unset⟩ [("y".toList, JSValue.num 1)] (by decide) (by decide)
  · exact c6_omitted_key_withheld.2
      ⟨.textNode, 1, [], .dyn ⟨"f".toList, ["a".toList], Slot.val (JSValue.fn .add2),
        [("a".toList, JSValue.num 1)]⟩, Slot.unset⟩
      ⟨"f".toList, ["a".toList], Slot.val (JSValue.fn .add2),
        [("a".toList, JSValue.num 1)]⟩
      [("a".toList, JSValue.num 2)] .add2 (by decide) (by decide)

/- ### Characterising the dynamic-expression grammar -/

theorem findCloseParen_decomp {s : Str} : ∀ {a b : Str},
    findCloseParen s = some (a, b) → s = a ++ ')' :: b := by
  induction s with
  | nil => intro a b h; simp [findCloseParen] at h
  | cons c rest ih =>
    intro a b h
    simp only [findCloseParen] at h
    split at h
    · rename_i hc
      simp only [Option.some.injEq, Prod.mk.injEq] at h
      rw [← h.1, ← h.2, hc]
      simp
    · cases hr : findCloseParen rest with
      | none => rw [hr] at h; exact absurd h (by simp)
      | some q =>
        obtain ⟨a', b'⟩ := q
        rw [hr] at h
        simp only [Option.map_some', Option.some.injEq, Prod.mk.injEq] at h
        rw [← h.1, ← h.2]
        simp [ih hr]

theorem findCloseParen_none_iff : ∀ (s : Str), (findCloseParen s = none ↔ ')' ∉ s)
  | [] => by simp [findCloseParen]
  | c :: rest => by
    simp only [findCloseParen, List.mem_cons]
    by_cases hc : c = ')'
    · rw [if_pos hc]
      simp [hc]
    · rw [if_neg hc]
      have ih := findCloseParen_none_iff rest
      cases hr : findCloseParen rest with
      | none =>
        simp only [Option.map_none', true_iff]
        rintro (he | he)
        · exact hc he.symm
        · exact (ih.1 hr) he
      | some p =>
        simp only [Option.map_some']
        refine iff_of_false (by simp) (not_not_intro ?_)
        right
        rw [findCloseParen_decomp (show findCloseParen rest = some (p.1, p.2) by
          rw [hr])]
        simp

/-- The executable-expression regex backtracking attempt: with accumulated
(reversed) group-1 candidate `acc`, the scan fails exactly when the
remaining input has no decomposition `u ++ lparen :: v ++ rparen :: w`
whose group 1 (`acc` plus `u`) is nonempty. -/
theorem execExprGo_none_iff : ∀ (s : Str) (acc : Str),
    (execExprGo acc s = none ↔
      ¬ ∃ u v w, s = u ++ '(' :: v ++ ')' :: w ∧ (u ≠ [] ∨ acc ≠ []))
  | [], acc => by
    simp only [execExprGo, true_iff]
    rintro ⟨u, v, w, hdec, _⟩
    exact absurd hdec (by simp)
  | c :: rest, acc => by
    by_cases hcond : c = '(' ∧ acc ≠ []
    · obtain ⟨hc, hacc⟩ := hcond
      subst hc
      cases hfc : findCloseParen rest with
      | some p =>
        obtain ⟨a, b⟩ := p
        have hdec := findCloseParen_decomp hfc
        refine iff_of_false ?_
          (not_not_intro ⟨[], a, b, by simp [hdec], Or.inr hacc⟩)
        simp [execExprGo, hfc, hacc]
      | none =>
        have hnp : ')' ∉ rest := (findCloseParen_none_iff rest).1 hfc
        have hstep : execExprGo acc ('(' :: rest) = execExprGo ('(' :: acc) rest := by
          simp [execExprGo, hfc, hacc]
        rw [hstep, execExprGo_none_iff rest ('(' :: acc)]
        refine iff_of_true ?_ ?_
        · rintro ⟨u, v, w, hdec, _⟩
          exact hnp (by rw [hdec]; simp)
        · rintro ⟨u, v, w, hdec, _⟩
          cases u with
          | nil =>
            simp only [List.nil_append] at hdec
            injection hdec with h1 h2
            exact hnp (by rw [h2]; simp)
          | cons x xs =>
            simp only [List.cons_append] at hdec
            injection hdec with h1 h2
            exact hnp (by rw [h2]; simp)
    · have hstep : execExprGo acc (c :: rest) = execExprGo (c :: acc) rest := by
        simp only [execExprGo, if_neg hcond]
      rw [hstep, execExprGo_none_iff rest (c :: acc)]
      constructor
      · intro hno
        rintro ⟨u, v, w, hdec, hcond2⟩
        cases u with
        | nil =>
          simp only [List.nil_append] at hdec
          injection hdec with h1 h2
          rcases hcond2 with h | h
          · exact h rfl
          · exact hcond ⟨h1, h⟩
        | cons x xs =>
          simp only [List.cons_append] at hdec
          injection hdec with h1 h2
          exact hno ⟨xs, v, w, h2, Or.inr (by simp)⟩
      · intro hno
        rintro ⟨u, v, w, hdec, _⟩
        exact hno ⟨c :: u, v, w, by simp [hdec], Or.inl (by simp)⟩

theorem execExpr_none_iff (s : Str) :
    execExpr s = none ↔ ¬ ∃ u v w, s = u ++ '(' :: v ++ ')' :: w ∧ u ≠ [] := by
  rw [execExpr, execExprGo_none_iff s []]
  constructor
  · intro hno
    rintro ⟨u, v, w, hdec, hu⟩
    exact hno ⟨u, v, w, hdec, Or.inl hu⟩
  · intro hno
    rintro ⟨u, v, w, hdec, hcond⟩
    rcases hcond with h | h
    · exact hno ⟨u, v, w, hdec, h⟩
    · exact h rfl

/-- Claim C7: an expression string in which the function-call sub-grammar
does not match (no closing parenthesis after an opening one that has at
least one preceding character) yields a static expression whose key is the
entire string; expression creation is total, so no error reaches the
caller. -/
theorem c7_malformed_degrades_static :
    (∀ s : Str, execExpr s = none → createExpression s = .static ⟨s, Slot.unset⟩) ∧
    (∀ s : Str, execExpr s = none ↔
        ¬ ∃ u v w, s = u ++ '(' :: v ++ ')' :: w ∧ u ≠ []) ∧
    createExpression ("fn(a".toList) = .static ⟨"fn(a".toList, Slot.unset⟩ ∧
    createExpression (")(".toList) = .static ⟨")(".toList, Slot.unset⟩ ∧
    createExpression ("(x)".toList) = .static ⟨"(x)".toList, Slot.unset⟩ := by
  refine ⟨?_, execExpr_none_iff, by decide, by decide, by decide⟩
  intro s h
  simp [createExpression, h]

theorem c7_malformed_degrades_static_witness :
    execExpr ("a)b(c".toList) = none ∧
    createExpression ("a)b(c".toList) = .static ⟨"a)b(c".toList, Slot.unset⟩ :=
  ⟨by decide, c7_malformed_degrades_static.1 ("a)b(c".toList) (by decide)⟩

/-- Claim C8: compilation registers, for every attribute whose value contains
a placeholder, exactly one descriptor at the element's index, classified
totally by the attribute-name's first character (`?` boolean attribute over
the rest of the name, `.` property over the rest, anything else a plain
attribute with the original name), and removes the attribute; attributes
without a placeholder are kept and produce nothing.  No classification case
is missing, so no unrecognised-name error path exists. -/
theorem c8_attr_classification :
    (∀ (i eid : Nat) (attrs : List Attr),
        parseAttrs i eid attrs =
          (attrs.filterMap fun a =>
             (findPlaceholder a.value).map fun t => classifyAttr i eid a t.2.1,
           attrs.filter fun a => (findPlaceholder a.value).isNone)) ∧
    (∀ (i eid : Nat) (a : Attr) (e : Str),
        (∃ n, a.name = '?' :: n ∧
          classifyAttr i eid a e = ⟨i, .booleanAttribute e n, eid⟩) ∨
        (∃ n, a.name = '.' :: n ∧
          classifyAttr i eid a e = ⟨i, .property e n, eid⟩) ∨
        classifyAttr i eid a e = ⟨i, .attr e a.name, eid⟩) ∧
    parseAttrs 5 7
        [⟨"?disabled".toList, "{d}".toList⟩, ⟨".val".toList, "{p}".toList⟩,
         ⟨"class".toList, "{c}".toList⟩, ⟨"id".toList, "x".toList⟩] =
      ([⟨5, .booleanAttribute "d".toList "disabled".toList, 7⟩,
        ⟨5, .property "p".toList "val".toList, 7⟩,
        ⟨5, .attr "c".toList "class".toList, 7⟩],
       [⟨"id".toList, "x".toList⟩]) := by
  refine ⟨?_, ?_, by decide⟩
  · intro i eid attrs
    induction attrs with
    | nil => rfl
    | cons a rest ih =>
      simp only [parseAttrs, List.filterMap_cons, List.filter_cons]
      cases h : findPlaceholder a.value with
      | none => simp [h, ih]
      | some t =>
        obtain ⟨b, e, r⟩ := t
        simp [h, ih]
  · intro i eid a e
    match ha : a.name with
    | [] => right; right; simp [classifyAttr, ha]
    | c :: n =>
      by_cases hq : c = '?'
      · subst hq
        exact Or.inl ⟨n, rfl, by simp [classifyAttr, ha]⟩
      · by_cases hd : c = '.'
        · subst hd
          exact Or.inr (Or.inl ⟨n, rfl, by simp [classifyAttr, ha]⟩)
        · right; right
          simp only [classifyAttr, ha]
          split
          · rename_i heq; injection heq with h1 _; exact absurd h1 hq
          · rename_i heq; injection heq with h1 _; exact absurd h1 hd
          · rfl

theorem hasAttr_remove (attrs : List Attr) (n : Str) :
    hasAttrList (removeAttrList attrs n) n = false := by
  simp only [hasAttrList, removeAttrList, List.any_eq_false]
  intro a ha
  rw [List.mem_filter] at ha
  simpa using ha.2

/-- Claim C9: a boolean-attribute part casts the evaluated value with
`Boolean(...)` and toggles the attribute's presence: any mutation it emits
is a presence toggle; toggling off leaves the attribute absent, toggling on
an absent attribute adds it with no (empty) value.  End to end, a `?hidden`
binding over `flag` with falsy `''` leaves the attribute absent and with
`true` makes it present with the empty value. -/
theorem c9_boolean_attr_presence :
    (∀ v, castValue .booleanAttribute v = .bool v.truthy) ∧
    (∀ (p : TemplatePart) (ctx : Ctx) (p' : TemplatePart) (muts : List Mutation),
        p.kind = .booleanAttribute → p.update ctx = some (p', muts) →
        muts = [] ∨ ∃ b, muts = [Mutation.toggleAttr p.nodeId p.name b]) ∧
    (∀ (attrs : List Attr) (n : Str),
        hasAttrList (toggleAttrList attrs n false) n = false) ∧
    (∀ (attrs : List Attr) (n : Str), hasAttrList attrs n = false →
        toggleAttrList attrs n true = attrs ++ [⟨n, []⟩]) ∧
    ((parse [DNode.element "div".toList
          [⟨"?hidden".toList, "{flag}".toList⟩] []]).createInstance
        (some [("flag".toList, JSValue.str [])]) =
      some ⟨[.element 1 "div".toList [] [] []],
        [⟨.booleanAttribute, 1, "hidden".toList,
          .static ⟨"flag".toList, .val (JSValue.str [])⟩,
          .val (JSValue.bool false)⟩]⟩) ∧
    ((parse [DNode.element "div".toList
          [⟨"?hidden".toList, "{flag}".toList⟩] []]).createInstance
        (some [("flag".toList, JSValue.bool true)]) =
      some ⟨[.element 1 "div".toList [⟨"hidden".toList, []⟩] [] []],
        [⟨.booleanAttribute, 1, "hidden".toList,
          .static ⟨"flag".toList, .val (JSValue.bool true)⟩,
          .val (JSValue.bool true)⟩]⟩) := by
  refine ⟨fun v => rfl, ?_, ?_, ?_, ?_, ?_⟩
  · intro p ctx p' muts hk h
    unfold TemplatePart.update at h
    split at h
    · split at h
      · exact absurd h (by simp)
      · rename_i raw ex' hg
        split at h
        · simp only [Option.some.injEq, Prod.mk.injEq] at h
          right
          rw [← h.2]
          exact ⟨(castValue p.kind raw).truthy, by simp [TemplatePart.applyKind, hk]⟩
        · simp only [Option.some.injEq, Prod.mk.injEq] at h
          left
          exact h.2.symm
    · simp only [Option.some.injEq, Prod.mk.injEq] at h
      left
      exact h.2.symm
  · intro attrs n
    have hremove : toggleAttrList attrs n false = removeAttrList attrs n := rfl
    rw [hremove]
    exact hasAttr_remove attrs n
  · intro attrs n h
    simp [toggleAttrList, h]
  · simp [parse, parseForest, parseAttrs, classifyAttr, findPlaceholder, placeholderAt,
      scanToClose, removeEmpty, Template.createInstance, instantiateParts, walkIds,
      flattenF, instantiatePartsGo, partsAt, instantiatePart, createExpression,
      execExpr, execExprGo, findCloseParen, initParamsStore, storeSet, jsTrim,
      splitOnComma, isJsSpace, TemplateInstance.update, runParts, TemplatePart.update,
      Expression.changed, StaticExpr.changed, lookupKey, slotNe, Expression.getValue,
      StaticExpr.getValue, castValue, JSValue.truthy, TemplatePart.applyKind,
      applyMutation, Mutation.mutId, toggleAttrList, hasAttrList, removeAttrList,
      mutText, MNode.nid, List.filter]
  · simp [parse, parseForest, parseAttrs, classifyAttr, findPlaceholder, placeholderAt,
      scanToClose, removeEmpty, Template.createInstance, instantiateParts, walkIds,
      flattenF, instantiatePartsGo, partsAt, instantiatePart, createExpression,
      execExpr, execExprGo, findCloseParen, initParamsStore, storeSet, jsTrim,
      splitOnComma, isJsSpace, TemplateInstance.update, runParts, TemplatePart.update,
      Expression.changed, StaticExpr.changed, lookupKey, slotNe, Expression.getValue,
      StaticExpr.getValue, castValue, JSValue.truthy, TemplatePart.applyKind,
      applyMutation, Mutation.mutId, toggleAttrList, hasAttrList, removeAttrList,
      mutText, MNode.nid, List.filter]

theorem c9_boolean_attr_presence_witness :
    ((⟨.booleanAttribute, 1, "hidden".toList, .static ⟨"flag".toList, Slot.unset⟩,
        Slot.unset⟩ : TemplatePart).kind = .booleanAttribute ∧
     (⟨.booleanAttribute, 1, "hidden".toList, .static ⟨"flag".toList, Slot.unset⟩,
        Slot.unset⟩ : TemplatePart).update [("flag".toList, JSValue.bool true)] =
       some (⟨.booleanAttribute, 1, "hidden".toList,
          .static ⟨"flag".toList, .val (JSValue.bool true)⟩,
          .val (JSValue.bool true)⟩,
        [Mutation.toggleAttr 1 "hidden".toList true])) ∧
    ([Mutation.toggleAttr 1 "hidden".toList true] = [] ∨
      ∃ b, [Mutation.toggleAttr 1 "hidden".toList true]
        = [Mutation.toggleAttr 1 "hidden".toList b]) ∧
    (hasAttrList [] "hidden".toList = false ∧
     toggleAttrList [] "hidden".toList true = [⟨"hidden".toList, []⟩]) := by
  refine ⟨⟨by decide, by decide⟩, ?_, ⟨by decide, ?_⟩⟩
  · exact c9_boolean_attr_presence.2.1
      ⟨.booleanAttribute, 1, "hidden".toList, .static ⟨"flag".toList, Slot.unset⟩,
        Slot.unset⟩
      [("flag".toList, JSValue.bool true)]
      ⟨.booleanAttribute, 1, "hidden".toList,
        .static ⟨"flag".toList, .val (JSValue.bool true)⟩, .val (JSValue.bool true)⟩
      [Mutation.toggleAttr 1 "hidden".toList true] (by decide) (by decide)
  · exact c9_boolean_attr_presence.2.2.2.1 [] ("hidden".toList) (by decide)

/- ### Walk-alignment lemmas -/

theorem flatU_append : ∀ (ms1 ms2 : List MNode),
    flatU (ms1 ++ ms2) = flatU ms1 ++ flatU ms2
  | [], _ => by simp [flatU]
  | .text id d fl :: ns, ms2 => by
    cases fl <;> simp [flatU, flatU_append ns ms2]
  | .element id t a p cs :: ns, ms2 => by
    simp [flatU, flatU_append ns ms2]

theorem flattenF_append : ∀ (ms1 ms2 : List MNode),
    flattenF (ms1 ++ ms2) = flattenF ms1 ++ flattenF ms2
  | [], _ => by simp [flattenF]
  | .text id d fl :: ns, ms2 => by
    simp [flattenF, flattenF_append ns ms2]
  | .element id t a p cs :: ns, ms2 => by
    simp [flattenF, flattenF_append ns ms2]

theorem idsF_append (ms1 ms2 : List MNode) :
    idsF (ms1 ++ ms2) = idsF ms1 ++ idsF ms2 := by
  simp [idsF, flattenF_append]

/-- The structural part of a node kept by `removeEmptyNodes` (children
filtered, everything else unchanged). -/
def cleanNode : MNode → MNode
  | .element id t a p cs => .element id t a p (removeEmpty cs)
  | .text id d fl => .text id d fl

theorem cleanNode_nid (n : MNode) : (cleanNode n).nid = n.nid := by
  cases n <;> rfl

/-- `removeEmptyNodes` deletes exactly the flagged segments: the walk over
the cleaned tree is the unflagged walk over the parsed tree. -/
theorem flattenF_removeEmpty : ∀ (ms : List MNode),
    flattenF (removeEmpty ms) = (flatU ms).map cleanNode
  | [] => by simp [removeEmpty, flattenF, flatU]
  | .text id d fl :: ns => by
    cases fl <;>
      simp [removeEmpty, flattenF, flatU, cleanNode, flattenF_removeEmpty ns]
  | .element id t a p cs :: ns => by
    simp [removeEmpty, flattenF, flatU, cleanNode, flattenF_removeEmpty ns,
      flattenF_removeEmpty cs]

theorem scanLoop_nil (id : Nat) (flagged : Bool) (i f : Nat) :
    scanLoop id [] flagged i f = ⟨[.text id [] flagged], [], i, f⟩ := by
  rw [scanLoop.eq_def]
  simp [findPlaceholder]

/-- Everything `scanLoop` guarantees: index accounting over surviving
segments, fresh-identity ranges, and for every registered part the surviving
walk position of its placeholder segment. -/
theorem scanLoop_spec : ∀ (id : Nat) (d : Str) (flagged : Bool) (i f : Nat),
    (flagged = true → d = []) →
    ((scanLoop id d flagged i f).idx + (if flagged then 0 else 1)
        = i + (flatU (scanLoop id d flagged i f).nodes).length) ∧
    f ≤ (scanLoop id d flagged i f).fresh ∧
    (∀ x ∈ idsF (scanLoop id d flagged i f).nodes,
        x = id ∨ (f ≤ x ∧ x < (scanLoop id d flagged i f).fresh)) ∧
    (∀ ip ∈ (scanLoop id d flagged i f).parts,
        f ≤ ip.target ∧ ip.target < (scanLoop id d flagged i f).fresh ∧
        ∃ j e, ip.index = i + j ∧ ip.desc = .textNode e ∧
          (flatU (scanLoop id d flagged i f).nodes).get? j
            = some (.text ip.target [] false)) ∧
    List.Pairwise (fun p q : IPart => p.target < q.target)
      (scanLoop id d flagged i f).parts := by
  intro id d flagged i f
  induction id, d, flagged, i, f using scanLoop.induct with
  | case1 id d flagged i f hfp =>
    intro hfl
    rw [scanLoop.eq_def, hfp]
    cases flagged with
    | true =>
      refine ⟨?_, le_refl f, ?_, by simp, by simp⟩
      · simp [flatU]
      · intro x hx
        simp only [idsF, flattenF, List.map_cons, flatU] at hx
        simp only [flattenF, List.map_nil, List.mem_singleton, MNode.nid] at hx
        exact Or.inl hx
    | false =>
      refine ⟨?_, le_refl f, ?_, by simp, by simp⟩
      · simp [flatU]
      · intro x hx
        simp only [idsF, flattenF, List.map_cons, flatU] at hx
        simp only [flattenF, List.map_nil, List.mem_singleton, MNode.nid] at hx
        exact Or.inl hx
  | case2 id d flagged i f before expr rest hfp ih =>
    intro hfl
    have hne : d ≠ [] := by
      intro hd
      rw [hd] at hfp
      simp [findPlaceholder] at hfp
    have hflag : flagged = false := by
      cases flagged with
      | true => exact absurd (hfl rfl) hne
      | false => rfl
    subst hflag
    rw [scanLoop.eq_def, hfp]
    dsimp only
    by_cases hr : rest = []
    · subst hr
      rw [scanLoop_nil]
      dsimp only
      by_cases hb : before = []
      · subst hb
        refine ⟨by simp [flatU], by simp, ?_, ?_, by simp⟩
        · intro x hx
          simp only [idsF, flattenF, List.map_cons, List.map_nil, MNode.nid,
            List.mem_cons, List.not_mem_nil, or_false] at hx
          rcases hx with h | h | h
          · exact Or.inl h
          · exact Or.inr ⟨le_of_eq h.symm, by omega⟩
          · exact Or.inr ⟨by omega, by omega⟩
        · intro ip hip
          simp only [List.mem_singleton] at hip
          subst hip
          exact ⟨by dsimp only; omega, by dsimp only; omega, 0, expr, by simp,
            by simp, by simp [flatU]⟩
      · refine ⟨by simp [flatU, hb], by simp, ?_, ?_, by simp⟩
        · intro x hx
          simp only [idsF, flattenF, List.map_cons, List.map_nil, MNode.nid,
            List.mem_cons, List.not_mem_nil, or_false] at hx
          rcases hx with h | h | h
          · exact Or.inl h
          · exact Or.inr ⟨le_of_eq h.symm, by omega⟩
          · exact Or.inr ⟨by omega, by omega⟩
        · intro ip hip
          simp only [List.mem_singleton] at hip
          subst hip
          exact ⟨by dsimp only; omega, by dsimp only; omega, 1, expr, by simp [hb],
            by simp, by simp [flatU, hb]⟩
    · have ihs := ih (fun h => absurd (of_decide_eq_true h) hr)
      simp only [hr, decide_False, Bool.false_eq_true, if_false, ite_false,
        dite_false] at ihs ⊢
      by_cases hb : before = []
      · subst hb
        simp only [decide_True, if_true, ite_true, dite_true] at ihs ⊢
        obtain ⟨ia, ib, ic, idp, ie⟩ := ihs
        refine ⟨?_, by omega, ?_, ?_, ?_⟩
        · simp only [flatU, if_true, ite_true, Bool.false_eq_true, if_false,
            ite_false, List.length_cons]
          omega
        · intro x hx
          simp only [idsF, flattenF, List.map_cons, MNode.nid, List.mem_cons] at hx
          rcases hx with h | h | h
          · exact Or.inl h
          · exact Or.inr ⟨le_of_eq h.symm, by omega⟩
          · rcases ic x (by simpa [idsF] using h) with h2 | h2
            · exact Or.inr ⟨by omega, by omega⟩
            · exact Or.inr ⟨by omega, h2.2⟩
        · intro ip hip
          rcases List.mem_cons.1 hip with hip | hip
          · subst hip
            exact ⟨by dsimp only; omega, by dsimp only; omega, 0, expr, by simp,
              by simp, by simp [flatU]⟩
          · obtain ⟨ht1, ht2, j', e', hidx, hdesc, hget⟩ := idp ip hip
            refine ⟨by omega, ht2, 1 + j', e', by omega, hdesc, ?_⟩
            simp only [flatU, if_true, ite_true, Bool.false_eq_true, if_false,
              ite_false]
            rw [show 1 + j' = j' + 1 by omega, List.get?_cons_succ]
            exact hget
        · rw [List.pairwise_cons]
          exact ⟨fun q hq => by have := (idp q hq).1; dsimp only; omega, ie⟩
      · simp only [hb, decide_False, Bool.false_eq_true, if_false, ite_false,
          dite_false] at ihs ⊢
        obtain ⟨ia, ib, ic, idp, ie⟩ := ihs
        refine ⟨?_, by omega, ?_, ?_, ?_⟩
        · simp only [flatU, if_false, ite_false, Bool.false_eq_true, if_true,
            ite_true, List.length_cons]
          omega
        · intro x hx
          simp only [idsF, flattenF, List.map_cons, MNode.nid, List.mem_cons] at hx
          rcases hx with h | h | h
          · exact Or.inl h
          · exact Or.inr ⟨le_of_eq h.symm, by omega⟩
          · rcases ic x (by simpa [idsF] using h) with h2 | h2
            · exact Or.inr ⟨by omega, by omega⟩
            · exact Or.inr ⟨by omega, h2.2⟩
        · intro ip hip
          rcases List.mem_cons.1 hip with hip | hip
          · subst hip
            exact ⟨by dsimp only; omega, by dsimp only; omega, 1, expr,
              by simp, by simp, by simp [flatU, hb]⟩
          · obtain ⟨ht1, ht2, j', e', hidx, hdesc, hget⟩ := idp ip hip
            refine ⟨by omega, ht2, 2 + j', e', by omega, hdesc, ?_⟩
            simp only [flatU, if_false, ite_false, Bool.false_eq_true, if_true,
              ite_true]
            rw [show 2 + j' = (j' + 1) + 1 by omega, List.get?_cons_succ,
              List.get?_cons_succ]
            exact hget
        · rw [List.pairwise_cons]
          exact ⟨fun q hq => by have := (idp q hq).1; dsimp only; omega, ie⟩

theorem classifyAttr_spec (i eid : Nat) (a : Attr) (e : Str) :
    (classifyAttr i eid a e).index = i ∧ (classifyAttr i eid a e).target = eid ∧
      ∀ e', (classifyAttr i eid a e).desc ≠ PartDesc.textNode e' := by
  unfold classifyAttr
  split
  · exact ⟨rfl, rfl, fun e' h => by simp at h⟩
  · exact ⟨rfl, rfl, fun e' h => by simp at h⟩
  · exact ⟨rfl, rfl, fun e' h => by simp at h⟩

theorem parseAttrs_parts (i eid : Nat) : ∀ (attrs : List Attr),
    ∀ ip ∈ (parseAttrs i eid attrs).1,
      ip.index = i ∧ ip.target = eid ∧ ∀ e, ip.desc ≠ PartDesc.textNode e
  | [] => by simp [parseAttrs]
  | a :: rest => by
    intro ip hip
    simp only [parseAttrs] at hip
    split at hip
    · rcases List.mem_cons.1 hip with hip | hip
      · subst hip
        exact classifyAttr_spec i eid a _
      · exact parseAttrs_parts i eid rest ip hip
    · exact parseAttrs_parts i eid rest ip hip

theorem pairwise_of_mem_rel {α : Type} {R : α → α → Prop} :
    ∀ (l : List α), (∀ a ∈ l, ∀ b ∈ l, R a b) → l.Pairwise R
  | [], _ => List.Pairwise.nil
  | a :: l, h => by
    refine List.Pairwise.cons (fun b hb => h a (by simp) b (by simp [hb])) ?_
    exact pairwise_of_mem_rel l (fun x hx y hy => h x (by simp [hx]) y (by simp [hy]))

/-- Everything `parseForest` guarantees: the final node index counts the
fragment nodes that survive `removeEmptyNodes`, all identities are fresh and
in range, and every registered part records the surviving-walk position of
its target node (a cleared placeholder segment for text parts, the element
itself for attribute-derived parts). -/
theorem parseForest_spec : ∀ (ns : List DNode) (i f : Nat),
    (parseForest ns i f).idx = i + (flatU (parseForest ns i f).nodes).length ∧
    f ≤ (parseForest ns i f).fresh ∧
    (∀ x ∈ idsF (parseForest ns i f).nodes,
        f ≤ x ∧ x < (parseForest ns i f).fresh) ∧
    (∀ ip ∈ (parseForest ns i f).parts,
        f ≤ ip.target ∧ ip.target < (parseForest ns i f).fresh ∧
        ∃ j n, ip.index = i + j ∧
          (flatU (parseForest ns i f).nodes).get? j = some n ∧
          n.nid = ip.target ∧
          (∀ e, ip.desc = .textNode e → n = MNode.text ip.target [] false)) ∧
    List.Pairwise (fun p q : IPart => p.target ≤ q.target ∧
        (((∃ e, p.desc = PartDesc.textNode e) ∨ (∃ e, q.desc = PartDesc.textNode e)) →
          p.target < q.target))
      (parseForest ns i f).parts := by
  intro ns i f
  induction ns, i, f using parseForest.induct with
  | case1 i f =>
    rw [parseForest.eq_def]
    exact ⟨by simp [flatU], le_refl f, by simp [idsF, flattenF], by simp, by simp⟩
  | case2 d ns i f ih =>
    obtain ⟨fa, fb, fc, fd, fe⟩ := ih
    obtain ⟨sa, sb, sc, sd, se⟩ := scanLoop_spec f d false i (f + 1) (by simp)
    simp only [Bool.false_eq_true, if_false, ite_false] at sa
    rw [parseForest.eq_def]
    dsimp only
    refine ⟨?_, ?_, ?_, ?_, ?_⟩
    · rw [flatU_append, List.length_append]
      omega
    · omega
    · intro x hx
      rw [idsF_append, List.mem_append] at hx
      rcases hx with hx | hx
      · rcases sc x hx with h | h
        · constructor <;> omega
        · constructor <;> omega
      · have := fc x hx
        constructor <;> omega
    · intro ip hip
      rcases List.mem_append.1 hip with hip | hip
      · obtain ⟨ht1, ht2, j, e, hidx, hdesc, hget⟩ := sd ip hip
        have hjlt : j < (flatU (scanLoop f d false i (f + 1)).nodes).length :=
          (List.get?_eq_some.1 hget).1
        refine ⟨by omega, by omega, j, .text ip.target [] false, hidx, ?_, rfl,
          fun e' _ => rfl⟩
        rw [flatU_append, List.get?_append hjlt]
        exact hget
      · obtain ⟨ht1, ht2, j, n, hidx, hget, hnid, hshape⟩ := fd ip hip
        refine ⟨by omega, by omega,
          (flatU (scanLoop f d false i (f + 1)).nodes).length + j, n,
          by omega, ?_, hnid, hshape⟩
        rw [flatU_append, List.get?_append_right (by omega)]
        rw [show (flatU (scanLoop f d false i (f + 1)).nodes).length + j
            - (flatU (scanLoop f d false i (f + 1)).nodes).length = j by omega]
        exact hget
    · rw [List.pairwise_append]
      refine ⟨List.Pairwise.imp (fun h => ⟨le_of_lt h, fun _ => h⟩) se, fe, ?_⟩
      intro p hp q hq
      have h1 := (sd p hp).2.1
      have h2 := (fd q hq).1
      exact ⟨by omega, fun _ => by omega⟩
  | case3 tag attrs cs ns i f ihc ihs =>
    obtain ⟨ca, cb, cc, cd, ce⟩ := ihc
    obtain ⟨na, nb, nc, nd, ne2⟩ := ihs
    rw [parseForest.eq_def]
    dsimp only
    refine ⟨?_, ?_, ?_, ?_, ?_⟩
    · simp only [flatU, flatU_append, List.length_cons, List.length_append]
      omega
    · omega
    · intro x hx
      simp only [idsF, flattenF, List.map_cons, List.map_append, MNode.nid,
        List.mem_cons, List.mem_append] at hx
      rcases hx with hx | hx | hx
      · subst hx
        constructor <;> omega
      · have := cc x (by simpa [idsF] using hx)
        constructor <;> omega
      · have := nc x (by simpa [idsF] using hx)
        constructor <;> omega
    · intro ip hip
      rcases List.mem_append.1 hip with hip | hip
      · rcases List.mem_append.1 hip with hip | hip
        · obtain ⟨hidx, htgt, hnotext⟩ := parseAttrs_parts i f attrs ip hip
          refine ⟨by omega, by omega, 0,
            .element f tag (parseAttrs i f attrs).2 []
              (parseForest cs (i + 1) (f + 1)).nodes, by omega, ?_,
            by simp [MNode.nid, htgt], fun e he => absurd he (hnotext e)⟩
          simp [flatU]
        · obtain ⟨ht1, ht2, j, n, hidx, hget, hnid, hshape⟩ := cd ip hip
          have hjlt : j < (flatU (parseForest cs (i + 1) (f + 1)).nodes).length :=
            (List.get?_eq_some.1 hget).1
          refine ⟨by omega, by omega, 1 + j, n, by omega, ?_, hnid, hshape⟩
          simp only [flatU]
          rw [show 1 + j = j + 1 by omega, List.get?_cons_succ,
            List.get?_append hjlt]
          exact hget
      · obtain ⟨ht1, ht2, j, n, hidx, hget, hnid, hshape⟩ := nd ip hip
        refine ⟨by omega, by omega,
          1 + (flatU (parseForest cs (i + 1) (f + 1)).nodes).length + j, n,
          by omega, ?_, hnid, hshape⟩
        simp only [flatU]
        rw [show 1 + (flatU (parseForest cs (i + 1) (f + 1)).nodes).length + j
            = ((flatU (parseForest cs (i + 1) (f + 1)).nodes).length + j) + 1
            by omega, List.get?_cons_succ, List.get?_append_right (by omega)]
        rw [show (flatU (parseForest cs (i + 1) (f + 1)).nodes).length + j
            - (flatU (parseForest cs (i + 1) (f + 1)).nodes).length = j by omega]
        exact hget
    · rw [List.pairwise_append]
      refine ⟨?_, ne2, ?_⟩
      · rw [List.pairwise_append]
        refine ⟨?_, ce, ?_⟩
        · refine pairwise_of_mem_rel _ (fun p hp q hq => ?_)
          obtain ⟨hpi, hpt, hpn⟩ := parseAttrs_parts i f attrs p hp
          obtain ⟨hqi, hqt, hqn⟩ := parseAttrs_parts i f attrs q hq
          refine ⟨by omega, fun hc => ?_⟩
          rcases hc with ⟨e, he⟩ | ⟨e, he⟩
          · exact absurd he (hpn e)
          · exact absurd he (hqn e)
        · intro p hp q hq
          obtain ⟨-, hpt, -⟩ := parseAttrs_parts i f attrs p hp
          have h2 := (cd q hq).1
          exact ⟨by omega, fun _ => by omega⟩
      · intro p hp q hq
        have h2 := (nd q hq).1
        rcases List.mem_append.1 hp with hp | hp
        · obtain ⟨-, hpt, -⟩ := parseAttrs_parts i f attrs p hp
          exact ⟨by omega, fun _ => by omega⟩
        · have h1 := (cd p hp).2.1
          exact ⟨by omega, fun _ => by omega⟩

/-- The walk over the compiled content assigns every registered part's index
to exactly its target node. -/
theorem parse_walk_get (ns : List DNode) {ip : IPart}
    (hip : ip ∈ (parse ns).parts) :
    (walkIds (parse ns).content).get? ip.index = some ip.target := by
  obtain ⟨-, -, -, fd, -⟩ := parseForest_spec ns 1 1
  obtain ⟨-, -, j, n, hidx, hget, hnid, -⟩ := fd ip hip
  have hcontent : (parse ns).content = removeEmpty (parseForest ns 1 1).nodes := rfl
  rw [hcontent]
  simp only [walkIds, flattenF_removeEmpty, List.map_map]
  have hmapnid : (MNode.nid ∘ cleanNode) = MNode.nid := by
    funext m
    exact cleanNode_nid m
  rw [hmapnid, hidx]
  rw [show 1 + j = j + 1 by omega, List.get?_cons_succ, List.get?_map, hget]
  simp [hnid]

theorem instantiatePartsGo_mem (parts : List IPart) :
    ∀ (walk : List Nat) (i0 k t : Nat) (ip : IPart),
      walk.get? k = some t → ip ∈ parts → ip.index = i0 + k →
      instantiatePart t ip.desc ∈ instantiatePartsGo parts walk i0
  | [], i0, k, t, ip => by
    intro h
    simp at h
  | nid :: rest, i0, k, t, ip => by
    intro hget hmem hidx
    cases k with
    | zero =>
      simp only [List.get?_cons_zero, Option.some.injEq] at hget
      subst hget
      refine List.mem_append_left _ ?_
      exact List.mem_map_of_mem _
        (List.mem_filter.2 ⟨hmem, by simp [hidx]⟩)
    | succ k' =>
      refine List.mem_append_right _ ?_
      exact instantiatePartsGo_mem parts rest (i0 + 1) k' t ip hget hmem (by omega)

/-- Claim C1: for every compiled template, the node index the compile-time
walk recorded for each part equals the position of the part's target node in
the instantiation-time walk over the compiled (cloned) content, so every
part binds to the correct live node; in particular, for source text
`pre{x}post` compilation produces three segments (`pre`, a cleared
placeholder-only segment registered as a text part for key `x`, `post`) and
instantiation binds the part to the placeholder segment; text segments
flagged as empty are deleted after the walk and receive no index in either
walk (shown by `{x}`, whose two empty side segments are deleted, leaving the
placeholder at index 1 in both walks). -/
theorem c1_walk_alignment :
    (∀ (ns : List DNode) (ip : IPart), ip ∈ (parse ns).parts →
        (walkIds (parse ns).content).get? ip.index = some ip.target ∧
        instantiatePart ip.target ip.desc ∈
          instantiateParts (parse ns).content (parse ns).parts) ∧
    (parse [DNode.text "pre{x}post".toList] =
      ⟨[.text 1 "pre".toList false, .text 2 [] false, .text 3 "post".toList false],
       [⟨2, .textNode "x".toList, 2⟩]⟩) ∧
    (instantiateParts
        [.text 1 "pre".toList false, .text 2 [] false, .text 3 "post".toList false]
        [⟨2, .textNode "x".toList, 2⟩] =
      [⟨.textNode, 2, [], .static ⟨"x".toList, Slot.unset⟩, Slot.unset⟩]) ∧
    (parse [DNode.text "{x}".toList] =
      ⟨[.text 2 [] false], [⟨1, .textNode "x".toList, 2⟩]⟩) ∧
    ((walkIds [MNode.text 2 [] false]).get? 1 = some 2) := by
  refine ⟨?_, ?_, ?_, ?_, by simp [walkIds, flattenF, MNode.nid]⟩
  · intro ns ip hip
    refine ⟨parse_walk_get ns hip, ?_⟩
    exact instantiatePartsGo_mem _ _ 0 ip.index ip.target ip
      (parse_walk_get ns hip) hip (by omega)
  · simp [parse, parseForest, scanLoop, findPlaceholder, placeholderAt, scanToClose,
      removeEmpty]
  · have h1 : walkIds [MNode.text 1 "pre".toList false, MNode.text 2 [] false,
        MNode.text 3 "post".toList false] = [0, 1, 2, 3] := by
      simp [walkIds, flattenF, MNode.nid]
    rw [instantiateParts, h1]
    simp [instantiatePartsGo, partsAt, instantiatePart, createExpression, execExpr,
      execExprGo, findCloseParen, List.filter]
  · simp [parse, parseForest, scanLoop, findPlaceholder, placeholderAt, scanToClose,
      removeEmpty]

theorem c1_walk_alignment_witness :
    ((⟨2, PartDesc.textNode "x".toList, 2⟩ : IPart)
        ∈ (parse [DNode.text "pre{x}post".toList]).parts) ∧
    ((walkIds (parse [DNode.text "pre{x}post".toList]).content).get? 2 = some 2 ∧
     instantiatePart 2 (PartDesc.textNode "x".toList) ∈
       instantiateParts (parse [DNode.text "pre{x}post".toList]).content
         (parse [DNode.text "pre{x}post".toList]).parts) := by
  have hmem : (⟨2, PartDesc.textNode "x".toList, 2⟩ : IPart)
      ∈ (parse [DNode.text "pre{x}post".toList]).parts := by
    simp [parse, parseForest, scanLoop, findPlaceholder, placeholderAt, scanToClose]
  exact ⟨hmem, c1_walk_alignment.1 [DNode.text "pre{x}post".toList] _ hmem⟩

/- ### Identity uniqueness of parsed trees -/

theorem scanLoop_nodup : ∀ (id : Nat) (d : Str) (flagged : Bool) (i f : Nat),
    (flagged = true → d = []) → id < f →
    (idsF (scanLoop id d flagged i f).nodes).Nodup := by
  intro id d flagged i f
  induction id, d, flagged, i, f using scanLoop.induct with
  | case1 id d flagged i f hfp =>
    intro hfl hid
    rw [scanLoop.eq_def, hfp]
    simp [idsF, flattenF]
  | case2 id d flagged i f before expr rest hfp ih =>
    intro hfl hid
    have hrec := ih (fun h => of_decide_eq_true h) (by omega)
    have hsc := (scanLoop_spec (f + 1) rest (decide (rest = []))
      (if rest = [] then (if before = [] then i else i + 1)
       else (if before = [] then i else i + 1) + 1) (f + 2)
      (fun h => of_decide_eq_true h)).2.2.1
    rw [scanLoop.eq_def, hfp]
    dsimp only
    simp only [idsF, flattenF, List.map_cons, MNode.nid, List.nodup_cons,
      List.mem_cons]
    refine ⟨?_, ?_, hrec⟩
    · push_neg
      refine ⟨by omega, ?_⟩
      intro hmem
      rcases hsc id hmem with h | h <;> omega
    · intro hmem
      rcases hsc f hmem with h | h <;> omega

theorem parseForest_nodup : ∀ (ns : List DNode) (i f : Nat),
    (idsF (parseForest ns i f).nodes).Nodup := by
  intro ns i f
  induction ns, i, f using parseForest.induct with
  | case1 i f =>
    rw [parseForest.eq_def]
    simp [idsF, flattenF]
  | case2 d ns i f ih =>
    have hs := scanLoop_nodup f d false i (f + 1) (by simp) (by omega)
    have hsc := (scanLoop_spec f d false i (f + 1) (by simp)).2.2.1
    have hfc := (parseForest_spec ns ((scanLoop f d false i (f + 1)).idx + 1)
      (scanLoop f d false i (f + 1)).fresh).2.2.1
    have hsfresh := (scanLoop_spec f d false i (f + 1) (by simp)).2.1
    rw [parseForest.eq_def]
    dsimp only
    rw [idsF_append]
    refine List.Nodup.append hs ih ?_
    intro x hx1 hx2
    have h1 := hsc x hx1
    have h2 := hfc x hx2
    rcases h1 with h | h <;> omega
  | case3 tag attrs cs ns i f ihc ihs =>
    have hcc := (parseForest_spec cs (i + 1) (f + 1)).2.2.1
    have hnc := (parseForest_spec ns (parseForest cs (i + 1) (f + 1)).idx
      (parseForest cs (i + 1) (f + 1)).fresh).2.2.1
    have hcb := (parseForest_spec cs (i + 1) (f + 1)).2.1
    rw [parseForest.eq_def]
    dsimp only
    simp only [idsF, flattenF, List.map_cons, List.map_append, MNode.nid,
      List.nodup_cons, List.mem_append]
    refine ⟨?_, ?_⟩
    · push_neg
      constructor
      · intro hmem
        have := hcc f (by simpa [idsF] using hmem)
        omega
      · intro hmem
        have := hnc f (by simpa [idsF] using hmem)
        omega
    · rw [show (List.map MNode.nid (flattenF (parseForest cs (i + 1) (f + 1)).nodes))
          = idsF (parseForest cs (i + 1) (f + 1)).nodes from rfl,
        show (List.map MNode.nid (flattenF (parseForest ns
            (parseForest cs (i + 1) (f + 1)).idx
            (parseForest cs (i + 1) (f + 1)).fresh).nodes))
          = idsF (parseForest ns (parseForest cs (i + 1) (f + 1)).idx
              (parseForest cs (i + 1) (f + 1)).fresh).nodes from rfl]
      refine List.Nodup.append ihc ihs ?_
      intro x hx1 hx2
      have h1 := hcc x hx1
      have h2 := hnc x hx2
      omega

/-- The surviving walk is a sublist of the full walk, so its identities are
also pairwise distinct. -/
theorem flatU_sublist : ∀ (ms : List MNode), List.Sublist (flatU ms) (flattenF ms)
  | [] => by simp [flatU, flattenF]
  | .text id d fl :: ns => by
    cases fl with
    | true =>
      simp only [flatU, flattenF, if_pos rfl]
      exact List.Sublist.cons _ (flatU_sublist ns)
    | false =>
      simp only [flatU, flattenF, Bool.false_eq_true, if_false, ite_false]
      exact List.Sublist.cons₂ _ (flatU_sublist ns)
  | .element id t a p cs :: ns => by
    simp only [flatU, flattenF]
    exact List.Sublist.cons₂ _
      (List.Sublist.append (flatU_sublist cs) (flatU_sublist ns))

/- ### Locating and mutating nodes by identity -/

def MNode.isElem : MNode → Bool
  | .element .. => true
  | .text .. => false

/-- The walk skeleton: kind and identity of every node in walk order.
Preserved by every mutation the engine can perform. -/
def tagsF (f : List MNode) : List (Bool × Nat) :=
  (flattenF f).map fun n => (n.isElem, n.nid)

theorem findById_not_mem : ∀ (f : List MNode) (u : Nat),
    u ∉ (flattenF f).map MNode.nid → findById f u = none
  | [], u => by
    intro _
    simp [findById]
  | .text id d fl :: ns, u => by
    intro hu
    simp only [flattenF, List.map_cons, List.mem_cons, MNode.nid] at hu
    push_neg at hu
    simp only [findById]
    rw [if_neg (Ne.symm hu.1)]
    exact findById_not_mem ns u (by simpa using hu.2)
  | .element id t a p cs :: ns, u => by
    intro hu
    simp only [flattenF, List.map_cons, List.map_append, List.mem_cons,
      List.mem_append, MNode.nid] at hu
    push_neg at hu
    simp only [findById]
    rw [if_neg (Ne.symm hu.1)]
    rw [findById_not_mem cs u (by simpa using hu.2.1)]
    exact findById_not_mem ns u (by simpa using hu.2.2)

theorem findById_flatten : ∀ (f : List MNode) (n : MNode),
    n ∈ flattenF f → ((flattenF f).map MNode.nid).Nodup →
    findById f n.nid = some n
  | [], n => by simp [flattenF]
  | .text id d fl :: ns, n => by
    intro hn hnd
    simp only [flattenF, List.mem_cons] at hn
    simp only [flattenF, List.map_cons, List.nodup_cons, MNode.nid] at hnd
    rcases hn with hn | hn
    · subst hn
      simp [findById, MNode.nid]
    · have hne : id ≠ n.nid := by
        intro h
        exact hnd.1 (h ▸ List.mem_map_of_mem MNode.nid hn)
      simp only [findById]
      rw [if_neg hne]
      exact findById_flatten ns n hn hnd.2
  | .element id t a p cs :: ns, n => by
    intro hn hnd
    simp only [flattenF, List.mem_cons, List.mem_append] at hn
    simp only [flattenF, List.map_cons, List.map_append, List.nodup_cons,
      List.mem_append, MNode.nid] at hnd
    have hnd2 := (List.nodup_append.1 hnd.2)
    rcases hn with hn | hn | hn
    · subst hn
      simp [findById, MNode.nid]
    · have hne : id ≠ n.nid := by
        intro h
        exact hnd.1 (Or.inl (h ▸ List.mem_map_of_mem MNode.nid hn))
      simp only [findById]
      rw [if_neg hne, findById_flatten cs n hn hnd2.1]
    · have hne : id ≠ n.nid := by
        intro h
        exact hnd.1 (Or.inr (h ▸ List.mem_map_of_mem MNode.nid hn))
      have hcs : findById cs n.nid = none := by
        refine findById_not_mem cs n.nid ?_
        intro hmem
        exact hnd2.2.2 hmem (List.mem_map_of_mem MNode.nid hn)
      simp only [findById]
      rw [if_neg hne, hcs]
      exact findById_flatten ns n hn hnd2.2.1

theorem tagsF_nil : tagsF [] = [] := by simp [tagsF, flattenF]

theorem tagsF_cons_text (id : Nat) (d : Str) (fl : Bool) (ns : List MNode) :
    tagsF (.text id d fl :: ns) = (false, id) :: tagsF ns := by
  simp [tagsF, flattenF, MNode.isElem, MNode.nid]

theorem tagsF_cons_elem (id : Nat) (t : Str) (a : List Attr)
    (p : List (Str × JSValue)) (cs ns : List MNode) :
    tagsF (.element id t a p cs :: ns) = (true, id) :: (tagsF cs ++ tagsF ns) := by
  simp [tagsF, flattenF, MNode.isElem, MNode.nid]

theorem mutText_attr (m : Mutation) (hm : ∀ nid v, m ≠ .setText nid v)
    (id : Nat) (d : Str) (fl : Bool) : mutText m id d fl = .text id d fl := by
  cases m with
  | setText nid v => exact absurd rfl (hm nid v)
  | setAttr nid n v => rfl
  | setProp nid n v => rfl
  | toggleAttr nid n fo => rfl

theorem applyMutation_elem_shape (m : Mutation) (hm : ∀ nid v, m ≠ .setText nid v)
    (id : Nat) (t : Str) (a : List Attr) (p : List (Str × JSValue))
    (cs ns : List MNode) :
    ∃ a' p', applyMutation m (.element id t a p cs :: ns)
      = .element id t a' p' (applyMutation m cs) :: applyMutation m ns := by
  cases m with
  | setText nid v => exact absurd rfl (hm nid v)
  | setAttr nid n v =>
    simp only [applyMutation]
    by_cases h : id = Mutation.mutId (.setAttr nid n v)
    · rw [if_pos h]
      exact ⟨_, _, rfl⟩
    · rw [if_neg h]
      exact ⟨a, p, rfl⟩
  | setProp nid n v =>
    simp only [applyMutation]
    by_cases h : id = Mutation.mutId (.setProp nid n v)
    · rw [if_pos h]
      exact ⟨_, _, rfl⟩
    · rw [if_neg h]
      exact ⟨a, p, rfl⟩
  | toggleAttr nid n fo =>
    simp only [applyMutation]
    by_cases h : id = Mutation.mutId (.toggleAttr nid n fo)
    · rw [if_pos h]
      exact ⟨_, _, rfl⟩
    · rw [if_neg h]
      exact ⟨a, p, rfl⟩

theorem applyMutation_setText_elem (u : Nat) (v : JSValue) (id : Nat) (t : Str)
    (a : List Attr) (p : List (Str × JSValue)) (cs ns : List MNode)
    (h : id ≠ u) :
    applyMutation (.setText u v) (.element id t a p cs :: ns)
      = .element id t a p (applyMutation (.setText u v) cs)
          :: applyMutation (.setText u v) ns := by
  simp only [applyMutation]
  rw [if_neg (show id ≠ Mutation.mutId (.setText u v) from h)]

theorem findNone_apply_attr (m : Mutation) (hm : ∀ nid v, m ≠ .setText nid v) :
    ∀ (f : List MNode) (w : Nat),
      findById f w = none → findById (applyMutation m f) w = none
  | [], w => by simp [applyMutation]
  | .text id d0 fl0 :: ns, w => by
    intro h
    simp only [findById] at h
    split at h
    · exact absurd h (by simp)
    · rename_i hw
      simp only [applyMutation, mutText_attr m hm, findById]
      rw [if_neg hw]
      exact findNone_apply_attr m hm ns w h
  | .element id t a p cs :: ns, w => by
    intro h
    simp only [findById] at h
    split at h
    · exact absurd h (by simp)
    · rename_i hw
      obtain ⟨a', p', heq⟩ := applyMutation_elem_shape m hm id t a p cs ns
      rw [heq]
      simp only [findById]
      rw [if_neg hw]
      have hcs : findById cs w = none := by
        cases hcs : findById cs w with
        | none => rfl
        | some n => rw [hcs] at h; exact absurd h (by simp)
      rw [hcs] at h
      rw [findNone_apply_attr m hm cs w hcs]
      exact findNone_apply_attr m hm ns w h

theorem findText_apply_attr (m : Mutation) (hm : ∀ nid v, m ≠ .setText nid v) :
    ∀ (f : List MNode) (w i : Nat) (d : Str) (fl : Bool),
      findById f w = some (.text i d fl) →
      findById (applyMutation m f) w = some (.text i d fl)
  | [], w, i, d, fl => by simp [findById]
  | .text id d0 fl0 :: ns, w, i, d, fl => by
    intro h
    simp only [findById] at h
    simp only [applyMutation, mutText_attr m hm, findById]
    split at h
    · rename_i hw
      rw [if_pos hw]
      exact h
    · rename_i hw
      rw [if_neg hw]
      exact findText_apply_attr m hm ns w i d fl h
  | .element id t a p cs :: ns, w, i, d, fl => by
    intro h
    simp only [findById] at h
    obtain ⟨a', p', heq⟩ := applyMutation_elem_shape m hm id t a p cs ns
    rw [heq]
    simp only [findById]
    split at h
    · exact absurd h (by simp)
    · rename_i hw
      rw [if_neg hw]
      cases hcs : findById cs w with
      | some n =>
        rw [hcs] at h
        have hn : n = .text i d fl := by
          simpa using h
        rw [findText_apply_attr m hm cs w i d fl (by rw [hcs, hn])]
      | none =>
        rw [hcs] at h
        rw [findNone_apply_attr m hm cs w hcs]
        exact findText_apply_attr m hm ns w i d fl h

theorem findNone_apply_setText (u : Nat) (v : JSValue) :
    ∀ (f : List MNode) (w : Nat), (true, u) ∉ tagsF f →
      findById f w = none → findById (applyMutation (.setText u v) f) w = none
  | [], w => by simp [applyMutation]
  | .text id d0 fl0 :: ns, w => by
    intro hu h
    rw [tagsF_cons_text] at hu
    simp only [findById] at h
    split at h
    · exact absurd h (by simp)
    · rename_i hw
      simp only [applyMutation, mutText, findById]
      by_cases hiu : id = u
      · rw [if_pos hiu]
        simp only [findById]
        rw [if_neg hw]
        exact findNone_apply_setText u v ns w (fun hm => hu (by simp [hm])) h
      · rw [if_neg hiu]
        simp only [findById]
        rw [if_neg hw]
        exact findNone_apply_setText u v ns w (fun hm => hu (by simp [hm])) h
  | .element id t a p cs :: ns, w => by
    intro hu h
    rw [tagsF_cons_elem] at hu
    have hiu : id ≠ u := by
      intro he
      exact hu (by simp [he])
    simp only [findById] at h
    split at h
    · exact absurd h (by simp)
    · rename_i hw
      rw [applyMutation_setText_elem u v id t a p cs ns hiu]
      simp only [findById]
      rw [if_neg hw]
      have hcs : findById cs w = none := by
        cases hcs : findById cs w with
        | none => rfl
        | some n => rw [hcs] at h; exact absurd h (by simp)
      rw [hcs] at h
      rw [findNone_apply_setText u v cs w (fun hm => hu (by simp [hm])) hcs]
      exact findNone_apply_setText u v ns w (fun hm => hu (by simp [hm])) h

theorem findText_apply_setText (u : Nat) (v : JSValue) :
    ∀ (f : List MNode) (w i : Nat) (d : Str) (fl : Bool), (true, u) ∉ tagsF f →
      findById f w = some (.text i d fl) →
      findById (applyMutation (.setText u v) f) w
        = some (.text i (if i = u then v.render else d) fl)
  | [], w, i, d, fl => by simp [findById]
  | .text id d0 fl0 :: ns, w, i, d, fl => by
    intro hu h
    rw [tagsF_cons_text] at hu
    simp only [findById] at h
    split at h
    · rename_i hw
      have hh : id = i ∧ d0 = d ∧ fl0 = fl := by
        simpa using h
      obtain ⟨h1, h2, h3⟩ := hh
      subst h1; subst h2; subst h3
      simp only [applyMutation, mutText]
      by_cases hiu : id = u
      · rw [if_pos hiu]
        simp only [findById]
        rw [if_pos hw, if_pos hiu]
      · rw [if_neg hiu]
        simp only [findById]
        rw [if_pos hw, if_neg hiu]
    · rename_i hw
      simp only [applyMutation, mutText]
      by_cases hiu : id = u
      · rw [if_pos hiu]
        simp only [findById]
        rw [if_neg hw]
        exact findText_apply_setText u v ns w i d fl (fun hm => hu (by simp [hm])) h
      · rw [if_neg hiu]
        simp only [findById]
        rw [if_neg hw]
        exact findText_apply_setText u v ns w i d fl (fun hm => hu (by simp [hm])) h
  | .element id t a p cs :: ns, w, i, d, fl => by
    intro hu h
    rw [tagsF_cons_elem] at hu
    have hiu : id ≠ u := by
      intro he
      exact hu (by simp [he])
    simp only [findById] at h
    split at h
    · exact absurd h (by simp)
    · rename_i hw
      rw [applyMutation_setText_elem u v id t a p cs ns hiu]
      simp only [findById]
      rw [if_neg hw]
      cases hcs : findById cs w with
      | some n =>
        rw [hcs] at h
        have hn : n = .text i d fl := by simpa using h
        rw [findText_apply_setText u v cs w i d fl (fun hm => hu (by simp [hm]))
          (by rw [hcs, hn])]
      | none =>
        rw [hcs] at h
        rw [findNone_apply_setText u v cs w (fun hm => hu (by simp [hm])) hcs]
        exact findText_apply_setText u v ns w i d fl (fun hm => hu (by simp [hm])) h

theorem tagsF_apply_attr (m : Mutation) (hm : ∀ nid v, m ≠ .setText nid v) :
    ∀ (f : List MNode), tagsF (applyMutation m f) = tagsF f
  | [] => by simp [applyMutation]
  | .text id d0 fl0 :: ns => by
    simp only [applyMutation, mutText_attr m hm, tagsF_cons_text]
    rw [tagsF_apply_attr m hm ns]
  | .element id t a p cs :: ns => by
    obtain ⟨a', p', heq⟩ := applyMutation_elem_shape m hm id t a p cs ns
    rw [heq, tagsF_cons_elem, tagsF_cons_elem]
    rw [tagsF_apply_attr m hm cs, tagsF_apply_attr m hm ns]

theorem tagsF_apply_setText (u : Nat) (v : JSValue) :
    ∀ (f : List MNode), (true, u) ∉ tagsF f →
      tagsF (applyMutation (.setText u v) f) = tagsF f
  | [] => by simp [applyMutation]
  | .text id d0 fl0 :: ns => by
    intro hu
    rw [tagsF_cons_text] at hu
    simp only [applyMutation, mutText]
    by_cases hiu : id = u
    · rw [if_pos hiu, tagsF_cons_text, tagsF_cons_text]
      rw [tagsF_apply_setText u v ns (fun hm => hu (by simp [hm]))]
    · rw [if_neg hiu, tagsF_cons_text, tagsF_cons_text]
      rw [tagsF_apply_setText u v ns (fun hm => hu (by simp [hm]))]
  | .element id t a p cs :: ns => by
    intro hu
    rw [tagsF_cons_elem] at hu
    have hiu : id ≠ u := by
      intro he
      exact hu (by simp [he])
    rw [applyMutation_setText_elem u v id t a p cs ns hiu,
      tagsF_cons_elem, tagsF_cons_elem]
    rw [tagsF_apply_setText u v cs (fun hm => hu (by simp [hm])),
      tagsF_apply_setText u v ns (fun hm => hu (by simp [hm]))]

/- ### The update run under the context patch used by claim C2 -/

/-- The initial context `{x: 'v'}`. -/
def ctxV : Ctx := [("x".toList, JSValue.str "v".toList)]

/-- Mutations an update under `ctxV` may emit: any attribute/property/toggle
mutation, or writing exactly the text `v` to a node that is a text node of
the instance (its tag appears as a text tag in the walk skeleton `E`). -/
def mutOkX (E : List (Bool × Nat)) : Mutation → Prop
  | .setText nid w => w = JSValue.str "v".toList ∧ (false, nid) ∈ E
  | _ => True

theorem not_elem_tag_of_text_tag {E : List (Bool × Nat)}
    (hnd : (E.map Prod.snd).Nodup) {nid : Nat} (hf : (false, nid) ∈ E) :
    (true, nid) ∉ E := by
  intro ht
  have := List.inj_on_of_nodup_map hnd hf ht rfl
  simp at this

theorem applyMuts_keep (E : List (Bool × Nat)) (t : Nat)
    (hnd : (E.map Prod.snd).Nodup) :
    ∀ (muts : List Mutation) (tree : List MNode) (d0 : Str),
      (∀ m ∈ muts, mutOkX E m) → tagsF tree = E →
      findById tree t = some (.text t d0 false) →
      tagsF (muts.foldl (fun acc m => applyMutation m acc) tree) = E ∧
      ∃ d1, findById (muts.foldl (fun acc m => applyMutation m acc) tree) t
          = some (.text t d1 false) ∧
        (d1 = d0 ∨ d1 = "v".toList) ∧
        ((Mutation.setText t (JSValue.str "v".toList)) ∈ muts → d1 = "v".toList)
  | [], tree, d0 => by
    intro _ htags hfind
    exact ⟨htags, d0, hfind, Or.inl rfl, by simp⟩
  | m :: rest, tree, d0 => by
    intro hok htags hfind
    have hm := hok m (by simp)
    cases m with
    | setText nid w =>
      obtain ⟨hw, hmem⟩ := hm
      subst hw
      have hnu : (true, nid) ∉ tagsF tree := by
        rw [htags]
        exact not_elem_tag_of_text_tag hnd hmem
      have htags' := tagsF_apply_setText nid (JSValue.str "v".toList) tree hnu
      have hfind' := findText_apply_setText nid (JSValue.str "v".toList) tree t t d0
        false hnu hfind
      simp only [List.foldl_cons]
      obtain ⟨ht2, d1, hf2, hd2, hmem2⟩ :=
        applyMuts_keep E t hnd rest (applyMutation (.setText nid (JSValue.str "v".toList)) tree)
          (if t = nid then (JSValue.str "v".toList).render else d0)
          (fun m hm2 => hok m (by simp [hm2])) (by rw [htags', htags]) hfind'
      refine ⟨ht2, d1, hf2, ?_, ?_⟩
      · rcases hd2 with h | h
        · by_cases htn : t = nid
          · right
            simp [h, htn, JSValue.render]
          · left
            rw [h, if_neg htn]
        · exact Or.inr h
      · intro hsmem
        rcases List.mem_cons.1 hsmem with hs | hs
        · have htn : t = nid := by
            injection hs
          rcases hd2 with h | h
          · simp [h, htn, JSValue.render]
          · exact h
        · exact hmem2 hs
    | setAttr nid n v =>
      have hne : ∀ nid' v', (Mutation.setAttr nid n v) ≠ .setText nid' v' := by
        intro nid' v' h
        exact absurd h (by simp)
      simp only [List.foldl_cons]
      obtain ⟨ht2, d1, hf2, hd2, hmem2⟩ :=
        applyMuts_keep E t hnd rest (applyMutation (.setAttr nid n v) tree) d0
          (fun m hm2 => hok m (by simp [hm2]))
          (by rw [tagsF_apply_attr _ hne, htags])
          (findText_apply_attr _ hne tree t t d0 false hfind)
      exact ⟨ht2, d1, hf2, hd2, fun hsmem => hmem2 (by
        rcases List.mem_cons.1 hsmem with hs | hs
        · exact absurd hs (by simp)
        · exact hs)⟩
    | setProp nid n v =>
      have hne : ∀ nid' v', (Mutation.setProp nid n v) ≠ .setText nid' v' := by
        intro nid' v' h
        exact absurd h (by simp)
      simp only [List.foldl_cons]
      obtain ⟨ht2, d1, hf2, hd2, hmem2⟩ :=
        applyMuts_keep E t hnd rest (applyMutation (.setProp nid n v) tree) d0
          (fun m hm2 => hok m (by simp [hm2]))
          (by rw [tagsF_apply_attr _ hne, htags])
          (findText_apply_attr _ hne tree t t d0 false hfind)
      exact ⟨ht2, d1, hf2, hd2, fun hsmem => hmem2 (by
        rcases List.mem_cons.1 hsmem with hs | hs
        · exact absurd hs (by simp)
        · exact hs)⟩
    | toggleAttr nid n fo =>
      have hne : ∀ nid' v', (Mutation.toggleAttr nid n fo) ≠ .setText nid' v' := by
        intro nid' v' h
        exact absurd h (by simp)
      simp only [List.foldl_cons]
      obtain ⟨ht2, d1, hf2, hd2, hmem2⟩ :=
        applyMuts_keep E t hnd rest (applyMutation (.toggleAttr nid n fo) tree) d0
          (fun m hm2 => hok m (by simp [hm2]))
          (by rw [tagsF_apply_attr _ hne, htags])
          (findText_apply_attr _ hne tree t t d0 false hfind)
      exact ⟨ht2, d1, hf2, hd2, fun hsmem => hmem2 (by
        rcases List.mem_cons.1 hsmem with hs | hs
        · exact absurd hs (by simp)
        · exact hs)⟩

/-- A part whose `update` under `ctxV` succeeds and emits only admissible
mutations. -/
def partOkX (E : List (Bool × Nat)) (p : TemplatePart) : Prop :=
  ∃ p' muts, p.update ctxV = some (p', muts) ∧ ∀ m ∈ muts, mutOkX E m

theorem run_keep (E : List (Bool × Nat)) (t : Nat)
    (hnd : (E.map Prod.snd).Nodup) :
    ∀ (l : List TemplatePart) (tree : List MNode) (d0 : Str),
      (∀ p ∈ l, partOkX E p) → tagsF tree = E →
      findById tree t = some (.text t d0 false) →
      ∃ r, runParts l ctxV tree = some r ∧ tagsF r.2 = E ∧
        ∃ d1, findById r.2 t = some (.text t d1 false) ∧
          (d1 = d0 ∨ d1 = "v".toList) ∧
          ((∃ p ∈ l, ∃ p', p.update ctxV = some (p', [.setText t (JSValue.str "v".toList)])) →
            d1 = "v".toList)
  | [], tree, d0 => by
    intro _ htags hfind
    refine ⟨([], tree), by simp [runParts], htags, d0, hfind, Or.inl rfl, ?_⟩
    rintro ⟨p, hp, -⟩
    exact absurd hp (List.not_mem_nil p)
  | p :: ps, tree, d0 => by
    intro hok htags hfind
    obtain ⟨p1, muts, hup, hmo⟩ := hok p (by simp)
    obtain ⟨htags1, d01, hfind1, hd01, hmemc⟩ :=
      applyMuts_keep E t hnd muts tree d0 hmo htags hfind
    obtain ⟨r, hrun, htagsr, d1, hf1, hd1, hemit⟩ :=
      run_keep E t hnd ps (muts.foldl (fun acc m => applyMutation m acc) tree) d01
        (fun q hq => hok q (by simp [hq])) htags1 hfind1
    refine ⟨(p1 :: r.1, r.2), ?_, htagsr, d1, hf1, ?_, ?_⟩
    · simp only [runParts, hup, hrun]
    · rcases hd1 with h | h
      · rcases hd01 with h2 | h2
        · exact Or.inl (h.trans h2)
        · exact Or.inr (h.trans h2)
      · exact Or.inr h
    · rintro ⟨q, hq, q', hq'⟩
      rcases List.mem_cons.1 hq with hqp | hqp
      · subst hqp
        rw [hup] at hq'
        have hm : muts = [Mutation.setText t (JSValue.str "v".toList)] := by
          injection hq' with h1
          exact congrArg Prod.snd h1
        have hd01v : d01 = "v".toList := hmemc (by simp [hm])
        rcases hd1 with h | h
        · exact h.trans hd01v
        · exact h
      · exact hemit ⟨q, hqp, q', hq'⟩

theorem instantiatePartsGo_sound (parts : List IPart) :
    ∀ (walk : List Nat) (i0 : Nat) (p : TemplatePart),
      p ∈ instantiatePartsGo parts walk i0 →
      ∃ k t ip, walk.get? k = some t ∧ ip ∈ parts ∧ ip.index = i0 + k ∧
        p = instantiatePart t ip.desc
  | [], i0, p => by
    intro hp
    simp [instantiatePartsGo] at hp
  | nid :: rest, i0, p => by
    intro hp
    simp only [instantiatePartsGo, List.mem_append] at hp
    rcases hp with hp | hp
    · obtain ⟨ip, hip, hmap⟩ := List.mem_map.1 hp
      have hf := List.mem_filter.1 hip
      have hidx : ip.index = i0 := by simpa using hf.2
      exact ⟨0, nid, ip, by simp, hf.1, by omega, hmap.symm⟩
    · obtain ⟨k, t, ip, hget, hmem, hidx, hp'⟩ :=
        instantiatePartsGo_sound parts rest (i0 + 1) p hp
      exact ⟨k + 1, t, ip, by simpa using hget, hmem, by omega, hp'⟩

theorem instantiatePart_fields (t : Nat) (d : PartDesc) :
    (instantiatePart t d).expr = createExpression d.expressionOf ∧
    (instantiatePart t d).value = Slot.unset ∧
    (instantiatePart t d).nodeId = t := by
  cases d <;> exact ⟨rfl, rfl, rfl⟩

theorem instantiatePart_kind_text (t : Nat) (d : PartDesc)
    (h : (instantiatePart t d).kind = PartKind.textNode) :
    ∃ e, d = PartDesc.textNode e := by
  cases d with
  | textNode e => exact ⟨e, rfl⟩
  | booleanAttribute e a => exact absurd h (by simp [instantiatePart])
  | property e a => exact absurd h (by simp [instantiatePart])
  | attr e a => exact absurd h (by simp [instantiatePart])

/-- The expression of the descriptor does not consult the key `x` as a
dynamic parameter or function name. -/
def noDynDepX (d : PartDesc) : Prop :=
  match createExpression d.expressionOf with
  | .static _ => True
  | .dyn de => "x".toList ∉ de.params ∧ de.functionName ≠ "x".toList

theorem lookup_ctxV_ne {k : Str} (h : k ≠ "x".toList) : lookupKey ctxV k = none := by
  have h2 : ¬(['x'] = k) := fun h3 => h h3.symm
  simp [ctxV, lookupKey, h2]

/-- A fresh static part over key `x` updated with `{x: 'v'}`: evaluates,
caches, and emits exactly its kind's mutation carrying the cast of `'v'`. -/
theorem update_staticX (p : TemplatePart)
    (hse : p.expr = .static ⟨"x".toList, Slot.unset⟩) (hv : p.value = Slot.unset) :
    p.update ctxV = some
      (⟨p.kind, p.nodeId, p.name,
        .static ⟨"x".toList, .val (JSValue.str "v".toList)⟩,
        .val (castValue p.kind (JSValue.str "v".toList))⟩,
       [p.applyKind (castValue p.kind (JSValue.str "v".toList))]) := by
  obtain ⟨k, nid, nm, ex, vl⟩ := p
  dsimp only at hse hv
  subst hse hv
  simp [TemplatePart.update, Expression.changed, StaticExpr.changed, ctxV,
    lookupKey, slotNe, Expression.getValue, StaticExpr.getValue]

theorem parse_ids_nodup (ns : List DNode) :
    ((flattenF (parse ns).content).map MNode.nid).Nodup := by
  have h2 : (parse ns).content = removeEmpty (parseForest ns 1 1).nodes := rfl
  rw [h2, flattenF_removeEmpty, List.map_map]
  have h3 : (MNode.nid ∘ cleanNode) = MNode.nid := funext cleanNode_nid
  rw [h3]
  exact List.Nodup.sublist (List.Sublist.map MNode.nid (flatU_sublist _))
    (parseForest_nodup ns 1 1)

theorem parse_tags_nodup (ns : List DNode) :
    ((tagsF (parse ns).content).map Prod.snd).Nodup := by
  have h1 : (tagsF (parse ns).content).map Prod.snd
      = (flattenF (parse ns).content).map MNode.nid := by
    rw [tagsF, List.map_map]
    rfl
  rw [h1]
  exact parse_ids_nodup ns

/-- The target of a text-node part survives to the compiled content as an
empty unflagged text node, locatable by identity. -/
theorem parse_text_part_node (ns : List DNode) {ip : IPart}
    (hip : ip ∈ (parse ns).parts) {e : Str} (hd : ip.desc = .textNode e) :
    findById (parse ns).content ip.target = some (.text ip.target [] false) ∧
    (false, ip.target) ∈ tagsF (parse ns).content := by
  obtain ⟨-, -, -, fd, -⟩ := parseForest_spec ns 1 1
  obtain ⟨-, -, j, n, hidx, hget, hnid, htx⟩ := fd ip hip
  have hn : n = MNode.text ip.target [] false := htx e hd
  subst hn
  have hmemU : MNode.text ip.target [] false ∈ flatU (parseForest ns 1 1).nodes :=
    List.get?_mem hget
  have hmemF : MNode.text ip.target [] false ∈ flattenF (parse ns).content := by
    have hc : (parse ns).content = removeEmpty (parseForest ns 1 1).nodes := rfl
    rw [hc, flattenF_removeEmpty]
    exact List.mem_map_of_mem cleanNode hmemU
  constructor
  · have := findById_flatten (parse ns).content (MNode.text ip.target [] false)
      hmemF (parse_ids_nodup ns)
    simpa [MNode.nid] using this
  · exact List.mem_map.2 ⟨_, hmemF, rfl⟩

/-- Every instantiated part of a compiled template whose dynamic parts avoid
the key `x` behaves admissibly under the patch `{x: 'v'}`. -/
theorem instancePart_okX (ns : List DNode)
    (hdyn : ∀ ip ∈ (parse ns).parts, noDynDepX ip.desc)
    (p : TemplatePart)
    (hp : p ∈ instantiateParts (parse ns).content (parse ns).parts) :
    partOkX (tagsF (parse ns).content) p := by
  obtain ⟨k, t, ip, hget, hmem, hidx, hpe⟩ :=
    instantiatePartsGo_sound (parse ns).parts (walkIds (parse ns).content) 0 p hp
  have hwg := parse_walk_get ns hmem
  rw [hidx] at hwg
  simp only [Nat.zero_add] at hwg
  rw [hget] at hwg
  have ht : t = ip.target := Option.some.inj hwg
  obtain ⟨hfe, hfv, hfn⟩ := instantiatePart_fields t ip.desc
  cases hce : createExpression ip.desc.expressionOf with
  | dyn de =>
    have hnd := hdyn ip hmem
    rw [noDynDepX, hce] at hnd
    refine ⟨p, [], update_of_no_dep p ctxV ?_, by simp⟩
    intro k' hk'
    rw [hpe, hfe, hce] at hk'
    simp only [Expression.deps, List.mem_cons] at hk'
    rcases hk' with hk' | hk'
    · exact lookup_ctxV_ne (hk' ▸ hnd.2)
    · exact lookup_ctxV_ne (fun hx => hnd.1 (hx ▸ hk'))
  | static se =>
    have hse : se = ⟨ip.desc.expressionOf, Slot.unset⟩ := by
      cases hee : execExpr ip.desc.expressionOf with
      | none =>
        rw [createExpression, hee] at hce
        exact (Expression.static.inj hce).symm
      | some pr =>
        obtain ⟨fn, ps⟩ := pr
        rw [createExpression, hee] at hce
        exact absurd hce (by simp)
    by_cases he : ip.desc.expressionOf = "x".toList
    · have hex : p.expr = .static ⟨"x".toList, Slot.unset⟩ := by
        rw [hpe, hfe, hce, hse, he]
      have hv : p.value = Slot.unset := by
        rw [hpe]
        exact hfv
      refine ⟨_, _, update_staticX p hex hv, ?_⟩
      intro m hm
      have hm2 := List.mem_singleton.1 hm
      subst hm2
      cases hk : p.kind with
      | textNode =>
        simp only [TemplatePart.applyKind, hk]
        refine ⟨by decide, ?_⟩
        have hkd : (instantiatePart t ip.desc).kind = PartKind.textNode := by
          rw [← hpe]
          exact hk
        obtain ⟨e2, hde⟩ := instantiatePart_kind_text t ip.desc hkd
        have hmemtag := (parse_text_part_node ns hmem hde).2
        have hnid : p.nodeId = ip.target := by
          rw [hpe, hfn, ht]
        rw [hnid]
        exact hmemtag
      | property =>
        simp only [TemplatePart.applyKind, hk]
        exact trivial
      | attr =>
        simp only [TemplatePart.applyKind, hk]
        exact trivial
      | booleanAttribute =>
        simp only [TemplatePart.applyKind, hk]
        exact trivial
    · refine ⟨p, [], update_of_no_dep p ctxV ?_, by simp⟩
      intro k' hk'
      rw [hpe, hfe, hce, hse] at hk'
      simp only [Expression.deps, List.mem_singleton] at hk'
      exact lookup_ctxV_ne (hk' ▸ he)

/-- Claim C2 (amended): compiling a tree and creating an instance with
initial context `{x: 'v'}` sets the text of every node bound to a text part
for the bare key `x` to exactly `'v'`, provided no dynamic expression in the
template consults `x` as a parameter or function name; without that proviso
instantiation can throw before the node is written (see the counterexample
theorem for `{f(x)\x7d{x\x7d`). -/
theorem c2_text_binding (ns : List DNode) (k t : Nat)
    (hdyn : ∀ ip ∈ (parse ns).parts, noDynDepX ip.desc)
    (hip : (⟨k, .textNode "x".toList, t⟩ : IPart) ∈ (parse ns).parts) :
    ∃ inst, (parse ns).createInstance (some ctxV) = some inst ∧
      findById inst.content t = some (.text t "v".toList false) := by
  have hnd := parse_tags_nodup ns
  have hnode := parse_text_part_node ns hip rfl
  obtain ⟨r, hrun, htagsr, d1, hf1, hd1, hemit⟩ :=
    run_keep (tagsF (parse ns).content) t hnd
      (instantiateParts (parse ns).content (parse ns).parts) (parse ns).content []
      (instancePart_okX ns hdyn) rfl hnode.1
  have hwg := parse_walk_get ns hip
  have hpmem : instantiatePart t (PartDesc.textNode "x".toList)
      ∈ instantiateParts (parse ns).content (parse ns).parts :=
    instantiatePartsGo_mem (parse ns).parts (walkIds (parse ns).content) 0 k t
      ⟨k, .textNode "x".toList, t⟩ hwg hip (by dsimp only; omega)
  have hub : (instantiatePart t (PartDesc.textNode "x".toList)).update ctxV
      = some (⟨.textNode, t, [],
          .static ⟨"x".toList, .val (JSValue.str "v".toList)⟩,
          .val (JSValue.str "v".toList)⟩,
        [.setText t (JSValue.str "v".toList)]) := by
    rw [update_staticX (instantiatePart t (PartDesc.textNode "x".toList)) rfl rfl]
    rfl
  have hd1v : d1 = "v".toList := hemit ⟨_, hpmem, _, hub⟩
  refine ⟨⟨r.2, r.1⟩, ?_, ?_⟩
  · simp only [Template.createInstance, TemplateInstance.update]
    rw [hrun]
  · rw [hf1, hd1v]

/-- Claim C2, counterexample to the unconditional reading: the text
`{f(x)\x7d{x\x7d` contains the placeholder `{x\x7d` and registers a text part for the
bare key `x`, yet creating an instance with initial context `{x: 'v'}`
throws (the dynamic part `f(x)` sees parameter `x` change, evaluates, and
calls its never-supplied function slot) — no instance is produced, so no
node's text is set to `'v'`. -/
theorem c2_cx_dynamic_dep_throws :
    ((⟨2, PartDesc.textNode "x".toList, 4⟩ : IPart)
        ∈ (parse [DNode.text "{f(x)}{x}".toList]).parts) ∧
    (parse [DNode.text "{f(x)}{x}".toList]).createInstance (some ctxV) = none := by
  constructor
  · simp [parse, parseForest, scanLoop, findPlaceholder, placeholderAt, scanToClose]
  · simp [parse, parseForest, scanLoop, findPlaceholder, placeholderAt, scanToClose,
      removeEmpty, Template.createInstance, TemplateInstance.update, runParts,
      instantiateParts, walkIds, flattenF, instantiatePartsGo, partsAt,
      instantiatePart, createExpression, execExpr, execExprGo, findCloseParen,
      initParamsStore, storeSet, jsTrim, splitOnComma, isJsSpace,
      TemplatePart.update, Expression.changed, DynExpr.changed,
      DynExpr.paramsChanged, DynExpr.functionChanged, StaticExpr.changed,
      lookupKey, slotNe, Expression.getValue, DynExpr.getValue,
      DynExpr.updateParams, DynExpr.updateFunction, mergeStep, Slot.call, ctxV]

theorem c2_text_binding_witness :
    ∃ inst, (parse [DNode.text "pre{x}post".toList]).createInstance (some ctxV)
        = some inst ∧
      findById inst.content 2 = some (.text 2 "v".toList false) := by
  refine c2_text_binding [DNode.text "pre{x}post".toList] 2 2 ?_ ?_
  · intro ip hip
    have hone : ip = ⟨2, PartDesc.textNode "x".toList, 2⟩ := by
      simpa [parse, parseForest, scanLoop, findPlaceholder, placeholderAt,
        scanToClose] using hip
    subst hone
    simp [noDynDepX, PartDesc.expressionOf, createExpression, execExpr,
      execExprGo, findCloseParen]
  · simp [parse, parseForest, scanLoop, findPlaceholder, placeholderAt, scanToClose]
